import Mathlib

/-!
# Verification of the `nbtlib` binary scanner

This file gives a shallow embedding of the core C scanner `nbtlib_scan`
(`src/include/nbtlib.h`) of the `nbtlib` repository, together with the
endian-retry logic of the Cython wrapper `TagIndex.__init__`, and proves
properties of the embedding.

Modelling conventions:

* The input buffer is a `List Nat` of byte values; reads go through
  `byteAt`, which reduces entries mod 256 (entries of a genuine byte
  buffer are untouched).  All reads performed by the C code are
  bounds-checked before they happen, so the `getD` default is never
  consulted on the paths the C code takes.
* The C `char` may be signed; the scanner converts `buffer[i]` to
  `uint32_t` in two places (the tag id in `SET_NAME` and the list
  subtype).  A sign-extended byte `>= 0x80` becomes a value
  `>= 0xFFFFFF80`, which the dispatch treats exactly like the unsigned
  value `>= 0x80` (both fall through every comparison to the
  `NBTLIB_ERROR_TYPE` branch, and both fail `subtype <= 6`), so we model
  bytes unsigned.
* `size_t` quantities (`i`, `buffer_size`) are modelled as `Nat` (the
  target platforms have 64-bit `size_t`; the scanner's increments cannot
  overflow it).  The payload-skip increments for array tags and numeric
  lists (`4 + array_length * numeric_sizes[op]` at nbtlib.h line 226 and
  `5 + list_length * numeric_sizes[subtype]` at line 251) are computed in
  32-bit unsigned arithmetic before being added to `i` (`array_length` /
  `list_length` are `uint32_t` and the table entries promote to `int`),
  so the model reduces exactly these two increments mod `2^32`.  The
  32-bit stack words are `Nat`s; every value the
  scanner pushes is `< 2^32` by construction (decoded lengths, byte
  values, the op markers and tag indices).  `tags_count` is a `uint32_t`
  in C; we model runs with fewer than `2^32` emitted descriptors
  exactly, which covers every input whose descriptor vector fits in the
  C vector at all.
* The machine is driven with explicit fuel; `scanFuelBound` is an
  explicit bound proved sufficient below, so fuel exhaustion (status 5)
  and argument-stack underflow (also status 5) are unreachable from the
  initial state.
* `PyMem_Realloc` can fail; the embedding takes an allocation oracle
  `allocOk : Nat → Bool` telling whether the reallocation to a given
  capacity succeeds, making `NBTLIB_ERROR_MEMORY` reachable.
* The host is modelled little-endian (the standard CPython target): the
  first byte of the constant `0x3e3c` is `0x3c = '<' = 60`, so the
  `native` flag is `byteorder == 60`, and a non-native load is the
  byte-swapped (big-endian) one.
-/

namespace Nbt

/-- Error statuses of `nbtlib_scan` (`NBTLIB_ERROR_*`, nbtlib.h lines 46-49).
Status 5 is reserved by the model for situations the C code cannot reach
from its initial state (fuel exhaustion / popping a marker whose
arguments are missing); the termination theorem shows status 5 never
occurs. -/
def ERROR_EOF : Nat := 1
def ERROR_TYPE : Nat := 2
def ERROR_DEPTH : Nat := 3
def ERROR_MEMORY : Nat := 4

/-- Stack-machine op markers (`NBTLIB_OP_*`, nbtlib.h lines 42-44):
`1 <<< 8`, `2 <<< 8`, `3 <<< 8`. -/
def OP_SET_NAME : Nat := 256
def OP_EXTEND_LIST : Nat := 512
def OP_EXTEND_COMPOUND : Nat := 768

/-- One scanned descriptor (`nbtlib_tag_t`, nbtlib.h lines 56-85).
`payload` is the offset of the payload in the input buffer (the C code
stores the pointer `buffer + offset`). -/
structure Tag where
  payload : Nat
  children : Nat
  name_length : Nat
  type : Nat
deriving Repr, DecidableEq

/-- The index produced by a successful scan (`nbtlib_index_t`,
nbtlib.h lines 94-99). -/
structure Index where
  tags : List Tag
  tags_count : Nat
  native : Bool
deriving Repr, DecidableEq

/-- Payload sizes of the fixed-size tags (the `numeric_sizes` lookup
table, nbtlib.h lines 125-130).  Indices not set by the designated
initializers (0, 8, 9, 10) are zero, exactly as in C. -/
def numeric_sizes (t : Nat) : Nat :=
  match t with
  | 1 => 1 | 2 => 2 | 3 => 4 | 4 => 8 | 5 => 4 | 6 => 8
  | 7 => 1 | 11 => 4 | 12 => 8
  | _ => 0

/-- Read the byte at offset `k` of the buffer. -/
def byteAt (buffer : List Nat) (k : Nat) : Nat :=
  buffer.getD k 0 % 256

/-- Decode an unsigned 16-bit integer at offset `k`: direct load when
`native` (little-endian host), `bswap_16` of the load otherwise
(nbtlib.h lines 198-199, 392-393). -/
def decode16 (native : Bool) (buffer : List Nat) (k : Nat) : Nat :=
  if native then byteAt buffer k + 256 * byteAt buffer (k + 1)
  else byteAt buffer (k + 1) + 256 * byteAt buffer k

/-- Decode an unsigned 32-bit integer at offset `k`: direct load when
`native`, `bswap_32` of the load otherwise (nbtlib.h lines 220-221,
242-243). -/
def decode32 (native : Bool) (buffer : List Nat) (k : Nat) : Nat :=
  if native then
    byteAt buffer k + 256 * byteAt buffer (k + 1) +
      65536 * byteAt buffer (k + 2) + 16777216 * byteAt buffer (k + 3)
  else
    byteAt buffer (k + 3) + 256 * byteAt buffer (k + 2) +
      65536 * byteAt buffer (k + 1) + 16777216 * byteAt buffer k

/-- The mutable state of the scanner loop: the running buffer index `i`,
the op stack (`head` = top of stack), the emitted descriptor vector, its
capacity, and the `current.name_length` register (the only field of
`current` that survives from one iteration to the next; the other fields
are always written before the descriptor is emitted). -/
structure ScanState where
  i : Nat
  ops : List Nat
  tags : List Tag
  tags_capacity : Nat
  curName : Nat
deriving Repr, DecidableEq

/-- Result of one loop iteration: either the loop continues in a new
state, or it stops with a status code (status 0 = the `while` condition
`ops_count > 0` failed, i.e. a successful scan). -/
inductive StepRes where
  | next (s : ScanState)
  | halt (status : Nat) (s : ScanState)
deriving Repr, DecidableEq

/-- Overwrite `tags[p].children` with `c`
(`tags[parent].children = tags_count - parent - 1`, nbtlib.h
lines 291, 354). -/
def setChildren (tags : List Tag) (p : Nat) (c : Nat) : List Tag :=
  tags.set p { tags.getD p ⟨0, 0, 0, 0⟩ with children := c }

/-- The tail of a loop iteration that emits the current descriptor
(nbtlib.h lines 420-458): check that the input index did not skip past
the end of the buffer, grow the vector (doubling from 32) through the
allocation oracle, and append.  `s` already carries the advanced `i` and
the updated op stack. -/
def pushTag (allocOk : Nat → Bool) (bs : Nat) (s : ScanState) (t : Tag) : StepRes :=
  if s.i > bs then .halt ERROR_EOF s
  else if s.tags.length ≥ s.tags_capacity then
    if allocOk (if s.tags_capacity = 0 then 32 else 2 * s.tags_capacity) then
      .next { s with
              tags := s.tags ++ [t],
              tags_capacity :=
                (if s.tags_capacity = 0 then 32 else 2 * s.tags_capacity) }
    else .halt ERROR_MEMORY s
  else .next { s with tags := s.tags ++ [t] }

/-- One iteration of the main loop of `nbtlib_scan`
(nbtlib.h lines 170-459). -/
def step (allocOk : Nat → Bool) (buffer : List Nat) (bs cap : Nat)
    (native : Bool) (s : ScanState) : StepRes :=
  match s.ops with
  | [] => .halt 0 s
  | op :: rest =>
    if 1 ≤ op ∧ op ≤ 6 then
      -- numeric tags (lines 178-185): skip the fixed-size payload
      pushTag allocOk bs { s with i := s.i + numeric_sizes op, ops := rest }
        ⟨s.i, 0, s.curName, op⟩
    else if op = 8 then
      -- string tags (lines 187-205)
      if s.i + 2 > bs then .halt ERROR_EOF s
      else
        let len := decode16 native buffer s.i
        pushTag allocOk bs { s with i := s.i + 2 + len, ops := rest }
          ⟨s.i + 2, len, s.curName, 8⟩
    else if op = 7 ∨ op = 11 ∨ op = 12 then
      -- array tags (lines 207-227): length parsed as unsigned; the skip
      -- `4 + array_length * numeric_sizes[op]` is uint32 arithmetic and
      -- wraps mod 2^32 before being added to the size_t index
      if s.i + 4 > bs then .halt ERROR_EOF s
      else
        let len := decode32 native buffer s.i
        pushTag allocOk bs
          { s with i := s.i + (4 + len * numeric_sizes op) % 2 ^ 32,
                   ops := rest }
          ⟨s.i + 4, len, s.curName, op⟩
    else if op = 9 then
      -- list tags (lines 229-270)
      if s.i + 5 > bs then .halt ERROR_EOF s
      else
        let subtype := byteAt buffer s.i
        let len := decode32 native buffer (s.i + 1)
        if subtype ≤ 6 then
          -- the skip `5 + list_length * numeric_sizes[subtype]` (line 251)
          -- is uint32 arithmetic and wraps mod 2^32
          pushTag allocOk bs
            { s with i := s.i + (5 + len * numeric_sizes subtype) % 2 ^ 32,
                     ops := rest }
            ⟨s.i + 5, len, s.curName, 9⟩
        else
          if rest.length + 4 > cap then .halt ERROR_DEPTH s
          else
            pushTag allocOk bs
              { s with i := s.i + 5,
                       ops := OP_EXTEND_LIST :: len :: subtype ::
                                s.tags.length :: rest }
              ⟨s.i + 5, 0, s.curName, 9⟩
    else if op = OP_EXTEND_LIST then
      -- collecting list elements (lines 272-311)
      match rest with
      | remaining :: subtype :: rest2 =>
        if remaining = 0 then
          match rest2 with
          | parent :: rest3 =>
            .next { s with ops := rest3,
                           tags := setChildren s.tags parent
                                     (s.tags.length - parent - 1) }
          | [] => .halt 5 s
        else
          if rest2.length + 4 > cap then .halt ERROR_DEPTH s
          else
            .next { s with ops := subtype :: OP_EXTEND_LIST ::
                             (remaining - 1) :: subtype :: rest2,
                           curName := 0 }
      | _ => .halt 5 s
    else if op = 10 then
      -- compound tags (lines 313-331)
      if rest.length + 2 > cap then .halt ERROR_DEPTH s
      else
        pushTag allocOk bs
          { s with ops := OP_EXTEND_COMPOUND :: s.tags.length :: rest }
          ⟨s.i, 0, s.curName, 10⟩
    else if op = OP_EXTEND_COMPOUND then
      -- collecting compound entries (lines 333-371)
      if s.i + 1 > bs then .halt ERROR_EOF s
      else if byteAt buffer s.i = 0 then
        match rest with
        | parent :: rest2 =>
          .next { s with i := s.i + 1, ops := rest2,
                         tags := setChildren s.tags parent
                                   (s.tags.length - parent - 1) }
        | [] => .halt 5 s
      else
        if rest.length + 2 > cap then .halt ERROR_DEPTH s
        else .next { s with ops := OP_SET_NAME :: OP_EXTEND_COMPOUND :: rest }
    else if op = OP_SET_NAME then
      -- named tags (lines 373-402)
      if s.i + 3 > bs then .halt ERROR_EOF s
      else if rest.length + 1 > cap then .halt ERROR_DEPTH s
      else
        let t := byteAt buffer s.i
        let nlen := decode16 native buffer (s.i + 1)
        .next { s with i := s.i + 3 + nlen, ops := t :: rest, curName := nlen }
    else
      -- invalid tag id (lines 404-411)
      .halt ERROR_TYPE s

/-- Run the loop for at most `fuel` iterations; `none` means the fuel
ran out (shown impossible for the fuel bound used by `nbtlib_scan`). -/
def run (allocOk : Nat → Bool) (buffer : List Nat) (bs cap : Nat)
    (native : Bool) : Nat → ScanState → Option (Nat × ScanState)
  | 0, _ => none
  | fuel + 1, s =>
    match step allocOk buffer bs cap native s with
    | .halt st s' => some (st, s')
    | .next s' => run allocOk buffer bs cap native fuel s'

/-- The state after `n` loop iterations (the state stops changing once
the loop stops); used to express properties of every intermediate state
of a scan. -/
def iterate (allocOk : Nat → Bool) (buffer : List Nat) (bs cap : Nat)
    (native : Bool) : Nat → ScanState → ScanState
  | 0, s => s
  | n + 1, s =>
    match step allocOk buffer bs cap native s with
    | .next s' => iterate allocOk buffer bs cap native n s'
    | .halt _ _ => s

/-- The initial state: `i = 0`, empty vector, the stack holding the
single word `SET_NAME` (nbtlib.h lines 133-167). -/
def initState : ScanState := ⟨0, [OP_SET_NAME], [], 0, 0⟩

/-- An explicit fuel bound for the scanner loop, proved sufficient by
`run_reaches_halt` below: a scalarization of the lexicographic measure
(buffer progress, stack weight). -/
def scanFuelBound (bs cap : Nat) : Nat :=
  (2 * bs + 4) * (2 ^ 35 * cap + 1) + 2

/-- The scanner core: status together with the final machine state.
`none` means the model ran out of fuel (never happens). -/
def scanRaw (allocOk : Nat → Bool) (buffer : List Nat) (stackSize : Nat)
    (byteorder : Nat) : Option (Nat × ScanState) :=
  let bs := buffer.length
  let cap := stackSize / 4
  let native := byteorder == 60
  if 1 > cap then some (ERROR_DEPTH, initState)
  else run allocOk buffer bs cap native (scanFuelBound bs cap) initState

/-- The `native` flag computed at nbtlib.h lines 121-122, on a
little-endian host: the first byte of `0x3e3c` is `0x3c = 60`. -/
def nativeFlag (byteorder : Nat) : Bool := byteorder == 60

/-- The full `nbtlib_scan` (nbtlib.h lines 101-481).  `index0` is the
caller-visible contents of `*index` before the call.  The result is
`(status, caller-visible index after the call, live tags allocation)`:
the third component models the heap buffer backing `index->tags` that is
still allocated when the function returns (`none` = freed or never
allocated), following lines 461-480. -/
def nbtlib_scan (allocOk : Nat → Bool) (buffer : List Nat) (stackSize : Nat)
    (byteorder : Nat) (index0 : Index) : Nat × Index × Option (List Tag) :=
  match scanRaw allocOk buffer stackSize byteorder with
  | some (0, s) =>
      (0, ⟨s.tags, s.tags.length, nativeFlag byteorder⟩, some s.tags)
  | some (st, _) => (st, index0, none)
  | none => (5, index0, none)

/-- The first scan performed by `TagIndex.__init__`
(the Cython wrapper, src/unnamed/part_004 lines 70-77): byte-order
character `'<'` (60) for `"little"`, `'>'` (62) for everything else, on
the zero-initialized `self.data`. -/
def tagIndexFirst (allocOk : Nat → Bool) (buffer : List Nat)
    (stackSize : Nat) (byteorder : String) : Nat × Index × Option (List Tag) :=
  nbtlib_scan allocOk buffer stackSize
    (if byteorder = "little" then 60 else 62) ⟨[], 0, false⟩

/-- The endian-retry logic of `TagIndex.__init__`
(src/unnamed/part_004 lines 60-101): if the first scan fails with `Eof`
or `InvalidType` and the byteorder string is neither `"big"` nor
`"little"`, scan once more with `'<'`.  Returns the status deciding
which exception is raised (0 = no exception) and the final
`self.data`. -/
def tagIndexInit (allocOk : Nat → Bool) (buffer : List Nat)
    (byteorder : String) (stackSize : Nat) : Nat × Index :=
  if (tagIndexFirst allocOk buffer stackSize byteorder).1 = 0 then
    (0, (tagIndexFirst allocOk buffer stackSize byteorder).2.1)
  else if ((tagIndexFirst allocOk buffer stackSize byteorder).1 = ERROR_EOF ∨
      (tagIndexFirst allocOk buffer stackSize byteorder).1 = ERROR_TYPE) ∧
      byteorder ≠ "big" ∧ byteorder ≠ "little" then
    ((nbtlib_scan allocOk buffer stackSize 60
        (tagIndexFirst allocOk buffer stackSize byteorder).2.1).1,
      (nbtlib_scan allocOk buffer stackSize 60
        (tagIndexFirst allocOk buffer stackSize byteorder).2.1).2.1)
  else ((tagIndexFirst allocOk buffer stackSize byteorder).1,
    (tagIndexFirst allocOk buffer stackSize byteorder).2.1)

/-- Default descriptor used for out-of-range `getD` reads (never consulted
on reachable paths). -/
def dTag : Tag := ⟨0, 0, 0, 0⟩

/-- Whether a descriptor owns nested descriptors: Compound tags, and List
tags whose subtype byte (stored in the buffer 5 bytes before the payload,
nbtlib.h line 241 together with line 245) is not numeric. -/
def isContainer (buffer : List Nat) (t : Tag) : Bool :=
  t.type == 10 || (t.type == 9 && decide (6 < byteAt buffer (t.payload - 5)))

/-- The payload span a successful scan actually guarantees for a
descriptor in a buffer of size `bs`: the fixed size for numeric tags and
`children` bytes for strings fit entirely; for arrays and numeric lists
the scanner only checks the index after the uint32-wrapped skip
(`4 + children * size` resp. `5 + children * size`, reduced mod `2^32`,
nbtlib.h lines 226, 251), so only the wrapped span is bounded — when the
skip wraps, the full declared payload `children * size` may extend past
the buffer.  For compounds and non-numeric lists the payload pointer
itself stays in bounds. -/
def spanFits (buffer : List Nat) (bs : Nat) (t : Tag) : Prop :=
  t.payload ≤ bs ∧
  (1 ≤ t.type ∧ t.type ≤ 6 → t.payload + numeric_sizes t.type ≤ bs) ∧
  (t.type = 8 → t.payload + t.children ≤ bs) ∧
  (t.type = 7 ∨ t.type = 11 ∨ t.type = 12 →
    t.payload + (4 + t.children * numeric_sizes t.type) % 2 ^ 32 ≤ bs + 4) ∧
  (t.type = 9 → byteAt buffer (t.payload - 5) ≤ 6 →
    t.payload +
      (5 + t.children * numeric_sizes (byteAt buffer (t.payload - 5))) %
        2 ^ 32 ≤ bs + 5)

/-- `Tiles buffer tags lo hi`: the descriptor range `[lo, hi)` is a
concatenation of complete subtrees: each container descriptor at `j` is
followed immediately by exactly `children` descendant descriptors and its
next sibling sits at `j + children + 1`; leaves occupy one slot.  This is
the well-formedness property of the pre-order index. -/
inductive Tiles (buffer : List Nat) (tags : List Tag) : Nat → Nat → Prop
  | nil (lo : Nat) : Tiles buffer tags lo lo
  | leaf {lo hi : Nat} :
      isContainer buffer (tags.getD lo dTag) = false →
      Tiles buffer tags (lo + 1) hi →
      Tiles buffer tags lo hi
  | node {lo hi : Nat} :
      isContainer buffer (tags.getD lo dTag) = true →
      Tiles buffer tags (lo + 1) (lo + 1 + (tags.getD lo dTag).children) →
      Tiles buffer tags (lo + 1 + (tags.getD lo dTag).children) hi →
      Tiles buffer tags lo hi

/-- Well-formedness of the op stack, relative to the current descriptor
vector.  `StackSeg buffer tags ops hi` reads the stack from the top:
dispatch words (bytes) and `SET_NAME` float above the frames; an
`EXTEND_LIST` frame `[512, remaining, subtype, parent]` and an
`EXTEND_COMPOUND` frame `[768, parent]` record an open container tag at
index `parent` whose children emitted so far tile the range
`(parent, hi]`; below an open container the remaining stack is
well-formed with `hi` reset to `parent`.  An empty stack means the whole
vector `[0, hi)` tiles. -/
inductive StackSeg (buffer : List Nat) (tags : List Tag) : List Nat → Nat → Prop
  | nil {hi : Nat} :
      Tiles buffer tags 0 hi →
      StackSeg buffer tags [] hi
  | name {rest : List Nat} {hi : Nat} :
      StackSeg buffer tags rest hi →
      StackSeg buffer tags (OP_SET_NAME :: rest) hi
  | dispatch {t : Nat} {rest : List Nat} {hi : Nat} :
      t < 256 →
      StackSeg buffer tags rest hi →
      StackSeg buffer tags (t :: rest) hi
  | elist {r s p : Nat} {rest : List Nat} {hi : Nat} :
      r < 2 ^ 32 → 6 < s → s < 256 →
      p < tags.length →
      (tags.getD p dTag).type = 9 →
      byteAt buffer ((tags.getD p dTag).payload - 5) = s →
      Tiles buffer tags (p + 1) hi →
      StackSeg buffer tags rest p →
      StackSeg buffer tags (OP_EXTEND_LIST :: r :: s :: p :: rest) hi
  | ecomp {p : Nat} {rest : List Nat} {hi : Nat} :
      p < tags.length →
      (tags.getD p dTag).type = 10 →
      Tiles buffer tags (p + 1) hi →
      StackSeg buffer tags rest p →
      StackSeg buffer tags (OP_EXTEND_COMPOUND :: p :: rest) hi

/-- The master loop invariant of the scanner. -/
structure Inv (buffer : List Nat) (bs cap : Nat) (s : ScanState) : Prop where
  seg : StackSeg buffer s.tags s.ops s.tags.length
  len_le : s.ops.length ≤ cap
  spans : ∀ t ∈ s.tags, spanFits buffer bs t
  arr32 : ∀ t ∈ s.tags, t.type = 7 ∨ t.type = 11 ∨ t.type = 12 →
    t.children < 2 ^ 32

/-- Weight of the op stack for the termination measure: an `EXTEND_LIST`
frame weighs `5 * remaining + 4`, an `EXTEND_COMPOUND` frame weighs 2, a
`SET_NAME` word weighs 1 and a dispatch word weighs 3. -/
def stackWeight : List Nat → Nat
  | [] => 0
  | 512 :: r :: _ :: _ :: rest2 => 5 * r + 4 + stackWeight rest2
  | 768 :: _ :: rest2 => 2 + stackWeight rest2
  | 256 :: rest => 1 + stackWeight rest
  | _ :: rest => 3 + stackWeight rest

/-- 0 when the next op is `SET_NAME` (which always either consumes input
or stops), 1 otherwise. -/
def headPenalty (ops : List Nat) : Nat :=
  match ops with
  | 256 :: _ => 0
  | _ => 1

/-- Remaining-input component of the termination measure. -/
def progress (bs i : Nat) : Nat := (bs + 2) - min i (bs + 2)

/-- The termination measure: a scalarization of the lexicographic pair
(input progress and head penalty, stack weight); every `.next` step
strictly decreases it. -/
def scanMeasure (bs cap : Nat) (s : ScanState) : Nat :=
  (2 * progress bs s.i + headPenalty s.ops) * (2 ^ 35 * cap + 1) +
    stackWeight s.ops

/-- Allocation oracle that always succeeds. -/
def allocAlways : Nat → Bool := fun _ => true

/-- Concrete buffer of spec scenario 5: the named tag
`LongArray "x" {1, 2, 3}` in big-endian form: id 12, name length 1,
name `"x"`, element count 3, then three 8-byte big-endian values. -/
def c8buf : List Nat :=
  [12, 0, 1, 120, 0, 0, 0, 3]
    ++ (List.replicate 7 0 ++ [1])
    ++ (List.replicate 7 0 ++ [2])
    ++ (List.replicate 7 0 ++ [3])

/-- A named `ByteArray` with declared (big-endian) length `2^31` and
exactly `2^31` payload bytes: id 7, empty name, length field
`0x80000000`, then the payload. -/
def c3buf : List Nat := [7, 0, 0, 128, 0, 0, 0] ++ List.replicate (2 ^ 31) 0

/-- A named List with subtype `End` and nonzero declared length 7:
id 9, empty name, subtype byte 0, big-endian length field 7, nothing
else. -/
def c7buf : List Nat := [9, 0, 0, 0, 0, 0, 0, 7]

/-- A 8-byte named List of Longs whose big-endian length field is
`0x20000000`: the uint32 skip `5 + 0x20000000 * 8` wraps to 5 mod
`2^32`, so the scanner lands exactly on the buffer end and accepts a
descriptor whose declared payload is 4 GiB long. -/
def c2buf : List Nat := [9, 0, 0, 4, 32, 0, 0, 0]

/-- A 7-byte named LongArray whose big-endian length field is
`0x20000000`: the uint32 skip `4 + 0x20000000 * 8` wraps to 4 mod
`2^32`, so the scanner lands exactly on the buffer end and accepts a
descriptor whose declared payload is 4 GiB long. -/
def c9buf : List Nat := [12, 0, 0, 32, 0, 0, 0]

/-! ## Basic lemmas about byte reads and decoded values -/

theorem byteAt_lt (buffer : List Nat) (k : Nat) : byteAt buffer k < 256 :=
  Nat.mod_lt _ (by norm_num)

theorem decode16_lt (native : Bool) (buffer : List Nat) (k : Nat) :
    decode16 native buffer k < 2 ^ 16 := by
  have h1 := byteAt_lt buffer k
  have h2 := byteAt_lt buffer (k + 1)
  unfold decode16
  split <;> omega

theorem decode32_lt (native : Bool) (buffer : List Nat) (k : Nat) :
    decode32 native buffer k < 2 ^ 32 := by
  have h1 := byteAt_lt buffer k
  have h2 := byteAt_lt buffer (k + 1)
  have h3 := byteAt_lt buffer (k + 2)
  have h4 := byteAt_lt buffer (k + 3)
  unfold decode32
  split <;> omega

/-! ## Lemmas about `getD` and `setChildren` -/

theorem getD_append_lt {α : Type} (l l2 : List α) (d : α) (j : Nat)
    (h : j < l.length) : (l ++ l2).getD j d = l.getD j d := by
  induction l generalizing j with
  | nil => simp at h
  | cons a l ih =>
    cases j with
    | zero => rfl
    | succ j => simpa using ih j (by simpa using h)

theorem getD_append_self {α : Type} (l : List α) (t d : α) :
    (l ++ [t]).getD l.length d = t := by
  induction l with
  | nil => rfl
  | cons a l ih => simp [ih]

theorem setChildren_length (tags : List Tag) (p c : Nat) :
    (setChildren tags p c).length = tags.length := by
  simp [setChildren]

theorem getD_setChildren_ne (tags : List Tag) (p c j : Nat) (h : j ≠ p) :
    (setChildren tags p c).getD j dTag = tags.getD j dTag := by
  unfold setChildren
  induction tags generalizing p j with
  | nil => simp [List.set]
  | cons a l ih =>
    cases p with
    | zero => cases j with
      | zero => omega
      | succ j => simp [List.set]
    | succ p => cases j with
      | zero => simp [List.set]
      | succ j => simpa [List.set] using ih p j (by omega)

theorem getD_setChildren_self (tags : List Tag) (p c : Nat)
    (h : p < tags.length) :
    (setChildren tags p c).getD p dTag =
      { tags.getD p dTag with children := c } := by
  unfold setChildren
  induction tags generalizing p with
  | nil => simp at h
  | cons a l ih =>
    cases p with
    | zero => simp [List.set]
    | succ p => simpa [List.set] using ih p (by simpa using h)

theorem mem_setChildren (tags : List Tag) (p c : Nat) (t : Tag)
    (h : t ∈ setChildren tags p c) :
    t ∈ tags ∨ (p < tags.length ∧ t = { tags.getD p dTag with children := c }) := by
  unfold setChildren at h
  induction tags generalizing p with
  | nil => simp [List.set] at h
  | cons a l ih =>
    cases p with
    | zero =>
      rcases (List.mem_cons.1 h) with h' | h'
      · right; exact ⟨by simp, by simpa using h'⟩
      · left; exact List.mem_cons_of_mem _ h'
    | succ p =>
      rcases (List.mem_cons.1 h) with h' | h'
      · left; simp [h']
      · rcases ih p h' with h'' | ⟨hl, he⟩
        · left; exact List.mem_cons_of_mem _ h''
        · right; exact ⟨by simpa using Nat.succ_lt_succ hl, by simpa using he⟩

/-! ## Lemmas about `Tiles` -/

theorem Tiles.le {buffer : List Nat} {tags : List Tag} {lo hi : Nat}
    (h : Tiles buffer tags lo hi) : lo ≤ hi := by
  induction h with
  | nil => exact Nat.le_refl _
  | leaf _ _ ih => omega
  | node _ _ _ ih1 ih2 => omega

theorem Tiles.concat {buffer : List Nat} {tags : List Tag} {lo mid hi : Nat}
    (h1 : Tiles buffer tags lo mid) (h2 : Tiles buffer tags mid hi) :
    Tiles buffer tags lo hi := by
  induction h1 with
  | nil => exact h2
  | leaf hc _ ih => exact .leaf hc (ih h2)
  | node hc hsub _ ih1 ih2 => exact .node hc hsub (ih2 h2)

/-- `Tiles` only inspects the descriptors in its range. -/
theorem Tiles.stable {buffer : List Nat} {tags tags' : List Tag} {lo hi : Nat}
    (h : Tiles buffer tags lo hi)
    (hagree : ∀ j, lo ≤ j → j < hi → tags'.getD j dTag = tags.getD j dTag) :
    Tiles buffer tags' lo hi := by
  induction h with
  | nil => exact .nil _
  | @leaf lo hi hc hsub ih =>
    have hlo : lo < hi := Nat.lt_of_lt_of_le (Nat.lt_succ_self _) hsub.le
    have he : tags'.getD lo dTag = tags.getD lo dTag := hagree lo (Nat.le_refl _) hlo
    exact .leaf (by rw [he]; exact hc)
      (ih fun j h1 h2 => hagree j (by omega) h2)
  | @node lo hi hc hsub hrest ih1 ih2 =>
    have hlo : lo < hi := by
      have := hsub.le
      have := hrest.le
      omega
    have he : tags'.getD lo dTag = tags.getD lo dTag := hagree lo (Nat.le_refl _) hlo
    have hsub' := ih1 fun j h1 h2 => hagree j (by omega) (by have := hrest.le; omega)
    have hrest' := ih2 fun j h1 h2 => hagree j (by have := hsub.le; omega) h2
    rw [← he] at hsub' hrest'
    exact .node (by rw [he]; exact hc) hsub' hrest'

theorem Tiles.append {buffer : List Nat} {tags l2 : List Tag} {lo hi : Nat}
    (h : Tiles buffer tags lo hi) (hhi : hi ≤ tags.length) :
    Tiles buffer (tags ++ l2) lo hi :=
  h.stable fun j _ h2 => getD_append_lt _ _ _ _ (by omega)

theorem Tiles.set_out {buffer : List Nat} {tags : List Tag} {lo hi p c : Nat}
    (h : Tiles buffer tags lo hi) (hp : p < lo ∨ hi ≤ p) :
    Tiles buffer (setChildren tags p c) lo hi :=
  h.stable fun j h1 h2 => getD_setChildren_ne _ _ _ _ (by omega)

/-- A single leaf occupies the tile `[lo, lo+1)`. -/
theorem Tiles.single_leaf {buffer : List Nat} {tags : List Tag} {lo : Nat}
    (hc : isContainer buffer (tags.getD lo dTag) = false) :
    Tiles buffer tags lo (lo + 1) :=
  .leaf hc (.nil _)

/-- A complete container subtree occupies the tile
`[lo, lo + 1 + children)`. -/
theorem Tiles.single_node {buffer : List Nat} {tags : List Tag} {lo : Nat}
    (hc : isContainer buffer (tags.getD lo dTag) = true)
    (hsub : Tiles buffer tags (lo + 1) (lo + 1 + (tags.getD lo dTag).children)) :
    Tiles buffer tags lo (lo + 1 + (tags.getD lo dTag).children) :=
  .node hc hsub (.nil _)

/-! ## Lemmas about `StackSeg` -/

theorem isContainer_children (buffer : List Nat) (t : Tag) (c : Nat) :
    isContainer buffer { t with children := c } = isContainer buffer t := rfl

/-- Appending fresh descriptors preserves stack well-formedness. -/
theorem StackSeg.appendTags {buffer : List Nat} {tags l2 : List Tag}
    {ops : List Nat} {hi : Nat}
    (h : StackSeg buffer tags ops hi) (hhi : hi ≤ tags.length) :
    StackSeg buffer (tags ++ l2) ops hi := by
  induction h with
  | nil ht => exact .nil (ht.append hhi)
  | name _ ih => exact .name (ih hhi)
  | dispatch hlt _ ih => exact .dispatch hlt (ih hhi)
  | elist hr hs1 hs2 hp htype hbyte htil hsub ih =>
    refine .elist hr hs1 hs2 (by simp; omega) ?_ ?_ (htil.append hhi) (ih (by omega))
    · rw [getD_append_lt _ _ _ _ hp]; exact htype
    · rw [getD_append_lt _ _ _ _ hp]; exact hbyte
  | ecomp hp htype htil hsub ih =>
    refine .ecomp (by simp; omega) ?_ (htil.append hhi) (ih (by omega))
    rw [getD_append_lt _ _ _ _ hp]; exact htype

/-- Updating the children count of a descriptor above the segment's
range preserves stack well-formedness. -/
theorem StackSeg.setOut {buffer : List Nat} {tags : List Tag}
    {ops : List Nat} {hi p0 c : Nat}
    (h : StackSeg buffer tags ops hi) (hhi : hi ≤ p0) :
    StackSeg buffer (setChildren tags p0 c) ops hi := by
  induction h with
  | nil ht => exact .nil (ht.set_out (Or.inr hhi))
  | name _ ih => exact .name (ih hhi)
  | dispatch hlt _ ih => exact .dispatch hlt (ih hhi)
  | elist hr hs1 hs2 hp htype hbyte htil hsub ih =>
    have hqp : _ + 1 ≤ _ := htil.le
    refine .elist hr hs1 hs2 (by rw [setChildren_length]; exact hp) ?_ ?_
      (htil.set_out (Or.inr hhi)) (ih (by omega))
    · rw [getD_setChildren_ne _ _ _ _ (by omega)]; exact htype
    · rw [getD_setChildren_ne _ _ _ _ (by omega)]; exact hbyte
  | ecomp hp htype htil hsub ih =>
    have hqp : _ + 1 ≤ _ := htil.le
    refine .ecomp (by rw [setChildren_length]; exact hp) ?_
      (htil.set_out (Or.inr hhi)) (ih (by omega))
    rw [getD_setChildren_ne _ _ _ _ (by omega)]; exact htype

/-- Emitting a leaf descriptor extends the innermost open range by one. -/
theorem StackSeg.snoc_leaf {buffer : List Nat} {tags : List Tag}
    {ops : List Nat} {hi : Nat} {t : Tag}
    (h : StackSeg buffer tags ops hi) (heq : hi = tags.length)
    (hc : isContainer buffer t = false) :
    StackSeg buffer (tags ++ [t]) ops (hi + 1) := by
  have htile : Tiles buffer (tags ++ [t]) hi (hi + 1) := by
    apply Tiles.single_leaf
    rw [heq, getD_append_self]
    exact hc
  induction h with
  | nil ht =>
    exact .nil ((ht.append (by omega)).concat htile)
  | name _ ih => exact .name (ih heq htile)
  | dispatch hlt _ ih => exact .dispatch hlt (ih heq htile)
  | elist hr hs1 hs2 hp htype hbyte htil hsub _ =>
    refine .elist hr hs1 hs2 (by simp; omega) ?_ ?_
      ((htil.append (by omega)).concat htile) (hsub.appendTags (by omega))
    · rw [getD_append_lt _ _ _ _ hp]; exact htype
    · rw [getD_append_lt _ _ _ _ hp]; exact hbyte
  | ecomp hp htype htil hsub _ =>
    refine .ecomp (by simp; omega) ?_
      ((htil.append (by omega)).concat htile) (hsub.appendTags (by omega))
    rw [getD_append_lt _ _ _ _ hp]; exact htype

/-- Closing an open container frame: the container at `p` receives
`children = tags.length - p - 1` and its subtree becomes a complete tile
reaching the end of the vector. -/
theorem StackSeg.close {buffer : List Nat} {tags : List Tag}
    {ops : List Nat} {hi p : Nat}
    (hsub : StackSeg buffer tags ops hi) (heq : hi = p)
    (hp : p < tags.length)
    (hcont : isContainer buffer (tags.getD p dTag) = true)
    (htiles : Tiles buffer tags (p + 1) tags.length) :
    StackSeg buffer (setChildren tags p (tags.length - p - 1)) ops
      tags.length := by
  have hnode : Tiles buffer (setChildren tags p (tags.length - p - 1)) p
      tags.length := by
    have hget := getD_setChildren_self tags p (tags.length - p - 1) hp
    have h1 : Tiles buffer (setChildren tags p (tags.length - p - 1)) (p + 1)
        tags.length := htiles.set_out (Or.inl (Nat.lt_succ_self _))
    have := @Tiles.single_node buffer
      (setChildren tags p (tags.length - p - 1)) p
      (by rw [hget, isContainer_children]; exact hcont) ?_
    · rw [hget] at this
      have harith : p + 1 + (tags.length - p - 1) = tags.length := by omega
      simpa [harith] using this
    · rw [hget]
      have harith : p + 1 + (tags.length - p - 1) = tags.length := by omega
      rw [harith]
      exact h1
  induction hsub with
  | nil ht =>
    subst heq
    exact .nil ((ht.set_out (Or.inr (Nat.le_refl _))).concat hnode)
  | name _ ih => exact .name (ih heq)
  | dispatch hlt _ ih => exact .dispatch hlt (ih heq)
  | elist hr hs1 hs2 hq htype hbyte htil hsub2 _ =>
    subst heq
    have hqp : _ + 1 ≤ _ := htil.le
    refine .elist hr hs1 hs2 (by rw [setChildren_length]; omega) ?_ ?_
      ((htil.set_out (Or.inr (Nat.le_refl _))).concat hnode)
      (hsub2.setOut (by omega))
    · rw [getD_setChildren_ne _ _ _ _ (by omega)]; exact htype
    · rw [getD_setChildren_ne _ _ _ _ (by omega)]; exact hbyte
  | ecomp hq htype htil hsub2 _ =>
    subst heq
    have hqp : _ + 1 ≤ _ := htil.le
    refine .ecomp (by rw [setChildren_length]; omega) ?_
      ((htil.set_out (Or.inr (Nat.le_refl _))).concat hnode)
      (hsub2.setOut (by omega))
    rw [getD_setChildren_ne _ _ _ _ (by omega)]; exact htype

/-! ## Reduction equations for the measure components -/

theorem stackWeight_elist (r s p : Nat) (rest : List Nat) :
    stackWeight (512 :: r :: s :: p :: rest) = 5 * r + 4 + stackWeight rest :=
  rfl

theorem stackWeight_ecomp (p : Nat) (rest : List Nat) :
    stackWeight (768 :: p :: rest) = 2 + stackWeight rest := rfl

theorem stackWeight_name (rest : List Nat) :
    stackWeight (256 :: rest) = 1 + stackWeight rest := rfl

theorem stackWeight_cons_lt (t : Nat) (rest : List Nat) (h : t < 256) :
    stackWeight (t :: rest) = 3 + stackWeight rest := by
  conv_lhs => rw [stackWeight.eq_def]
  split <;> simp_all

theorem headPenalty_cons (t : Nat) (ops : List Nat) (h : t ≠ 256) :
    headPenalty (t :: ops) = 1 := by
  conv_lhs => rw [headPenalty.eq_def]
  split <;> simp_all

/-- The stack weight of a well-formed stack of at most `cap` words is
below `2^35 * cap`. -/
theorem stackWeight_le_of_seg {buffer : List Nat} {tags : List Tag}
    {ops : List Nat} {hi : Nat}
    (h : StackSeg buffer tags ops hi) :
    stackWeight ops ≤ 2 ^ 35 * ops.length := by
  have h35 : (2 : Nat) ^ 35 = 34359738368 := by norm_num
  have h32 : (2 : Nat) ^ 32 = 4294967296 := by norm_num
  induction h with
  | nil _ => simp [stackWeight]
  | @name rest _ _ ih =>
    rw [show OP_SET_NAME = 256 from rfl, stackWeight_name]
    simp only [List.length_cons]
    omega
  | @dispatch t rest _ hlt _ ih =>
    rw [stackWeight_cons_lt t rest hlt]
    simp only [List.length_cons]
    omega
  | @elist r s p rest _ hr _ _ _ _ _ _ _ ih =>
    rw [show OP_EXTEND_LIST = 512 from rfl, stackWeight_elist]
    simp only [List.length_cons]
    omega
  | @ecomp p rest _ _ _ _ _ ih =>
    rw [show OP_EXTEND_COMPOUND = 768 from rfl, stackWeight_ecomp]
    simp only [List.length_cons]
    omega

/-! ## Branch equations for `step` -/

section StepEqns

variable (allocOk : Nat → Bool) (buffer : List Nat) (bs cap : Nat)
  (native : Bool) (i : Nat) (rest : List Nat) (tags : List Tag)
  (tc nm : Nat)

theorem step_nil :
    step allocOk buffer bs cap native ⟨i, [], tags, tc, nm⟩ =
      .halt 0 ⟨i, [], tags, tc, nm⟩ := rfl

theorem step_numeric {op : Nat} (h1 : 1 ≤ op) (h2 : op ≤ 6) :
    step allocOk buffer bs cap native ⟨i, op :: rest, tags, tc, nm⟩ =
      pushTag allocOk bs ⟨i + numeric_sizes op, rest, tags, tc, nm⟩
        ⟨i, 0, nm, op⟩ := by
  simp [step, OP_SET_NAME, OP_EXTEND_LIST, OP_EXTEND_COMPOUND, *]

theorem step_string_eof (h : i + 2 > bs) :
    step allocOk buffer bs cap native ⟨i, 8 :: rest, tags, tc, nm⟩ =
      .halt ERROR_EOF ⟨i, 8 :: rest, tags, tc, nm⟩ := by
  simp [step, OP_SET_NAME, OP_EXTEND_LIST, OP_EXTEND_COMPOUND, *]

theorem step_string (h : ¬ i + 2 > bs) :
    step allocOk buffer bs cap native ⟨i, 8 :: rest, tags, tc, nm⟩ =
      pushTag allocOk bs
        ⟨i + 2 + decode16 native buffer i, rest, tags, tc, nm⟩
        ⟨i + 2, decode16 native buffer i, nm, 8⟩ := by
  simp [step, OP_SET_NAME, OP_EXTEND_LIST, OP_EXTEND_COMPOUND, *]

theorem step_array_eof {op : Nat} (hop : op = 7 ∨ op = 11 ∨ op = 12)
    (h : i + 4 > bs) :
    step allocOk buffer bs cap native ⟨i, op :: rest, tags, tc, nm⟩ =
      .halt ERROR_EOF ⟨i, op :: rest, tags, tc, nm⟩ := by
  rcases hop with hv | hv | hv <;> subst hv <;>
    simp [step, OP_SET_NAME, OP_EXTEND_LIST, OP_EXTEND_COMPOUND, *]

theorem step_array {op : Nat} (hop : op = 7 ∨ op = 11 ∨ op = 12)
    (h : ¬ i + 4 > bs) :
    step allocOk buffer bs cap native ⟨i, op :: rest, tags, tc, nm⟩ =
      pushTag allocOk bs
        ⟨i + (4 + decode32 native buffer i * numeric_sizes op) % 2 ^ 32,
          rest, tags, tc, nm⟩
        ⟨i + 4, decode32 native buffer i, nm, op⟩ := by
  rcases hop with hv | hv | hv <;> subst hv <;>
    simp [step, OP_SET_NAME, OP_EXTEND_LIST, OP_EXTEND_COMPOUND, *]

theorem step_list_eof (h : i + 5 > bs) :
    step allocOk buffer bs cap native ⟨i, 9 :: rest, tags, tc, nm⟩ =
      .halt ERROR_EOF ⟨i, 9 :: rest, tags, tc, nm⟩ := by
  simp [step, OP_SET_NAME, OP_EXTEND_LIST, OP_EXTEND_COMPOUND, *]

theorem step_list_num (h : ¬ i + 5 > bs) (hsub : byteAt buffer i ≤ 6) :
    step allocOk buffer bs cap native ⟨i, 9 :: rest, tags, tc, nm⟩ =
      pushTag allocOk bs
        ⟨i + (5 + decode32 native buffer (i + 1) *
            numeric_sizes (byteAt buffer i)) % 2 ^ 32, rest, tags, tc, nm⟩
        ⟨i + 5, decode32 native buffer (i + 1), nm, 9⟩ := by
  simp [step, OP_SET_NAME, OP_EXTEND_LIST, OP_EXTEND_COMPOUND, *]

theorem step_list_depth (h : ¬ i + 5 > bs) (hsub : ¬ byteAt buffer i ≤ 6)
    (hcap : rest.length + 4 > cap) :
    step allocOk buffer bs cap native ⟨i, 9 :: rest, tags, tc, nm⟩ =
      .halt ERROR_DEPTH ⟨i, 9 :: rest, tags, tc, nm⟩ := by
  simp [step, OP_SET_NAME, OP_EXTEND_LIST, OP_EXTEND_COMPOUND, *]

theorem step_list_push (h : ¬ i + 5 > bs) (hsub : ¬ byteAt buffer i ≤ 6)
    (hcap : ¬ rest.length + 4 > cap) :
    step allocOk buffer bs cap native ⟨i, 9 :: rest, tags, tc, nm⟩ =
      pushTag allocOk bs
        ⟨i + 5, OP_EXTEND_LIST :: decode32 native buffer (i + 1) ::
            byteAt buffer i :: tags.length :: rest, tags, tc, nm⟩
        ⟨i + 5, 0, nm, 9⟩ := by
  simp [step, OP_SET_NAME, OP_EXTEND_LIST, OP_EXTEND_COMPOUND, *]

theorem step_elist_zero (s0 p : Nat) (rest3 : List Nat) :
    step allocOk buffer bs cap native
      ⟨i, 512 :: 0 :: s0 :: p :: rest3, tags, tc, nm⟩ =
      .next ⟨i, rest3, setChildren tags p (tags.length - p - 1), tc, nm⟩ := by
  simp [step, OP_SET_NAME, OP_EXTEND_LIST, OP_EXTEND_COMPOUND, *]

theorem step_elist_more {r : Nat} (s0 : Nat) (rest2 : List Nat) (hr : r ≠ 0)
    (hcap : ¬ rest2.length + 4 > cap) :
    step allocOk buffer bs cap native
      ⟨i, 512 :: r :: s0 :: rest2, tags, tc, nm⟩ =
      .next ⟨i, s0 :: OP_EXTEND_LIST :: (r - 1) :: s0 :: rest2, tags, tc,
        0⟩ := by
  simp [step, OP_SET_NAME, OP_EXTEND_LIST, OP_EXTEND_COMPOUND, *]

theorem step_elist_depth {r : Nat} (s0 : Nat) (rest2 : List Nat) (hr : r ≠ 0)
    (hcap : rest2.length + 4 > cap) :
    step allocOk buffer bs cap native
      ⟨i, 512 :: r :: s0 :: rest2, tags, tc, nm⟩ =
      .halt ERROR_DEPTH ⟨i, 512 :: r :: s0 :: rest2, tags, tc, nm⟩ := by
  simp [step, OP_SET_NAME, OP_EXTEND_LIST, OP_EXTEND_COMPOUND, *]

theorem step_compound_depth (hcap : rest.length + 2 > cap) :
    step allocOk buffer bs cap native ⟨i, 10 :: rest, tags, tc, nm⟩ =
      .halt ERROR_DEPTH ⟨i, 10 :: rest, tags, tc, nm⟩ := by
  simp [step, OP_SET_NAME, OP_EXTEND_LIST, OP_EXTEND_COMPOUND, *]

theorem step_compound (hcap : ¬ rest.length + 2 > cap) :
    step allocOk buffer bs cap native ⟨i, 10 :: rest, tags, tc, nm⟩ =
      pushTag allocOk bs
        ⟨i, OP_EXTEND_COMPOUND :: tags.length :: rest, tags, tc, nm⟩
        ⟨i, 0, nm, 10⟩ := by
  simp [step, OP_SET_NAME, OP_EXTEND_LIST, OP_EXTEND_COMPOUND, *]

theorem step_ecomp_eof (h : i + 1 > bs) :
    step allocOk buffer bs cap native ⟨i, 768 :: rest, tags, tc, nm⟩ =
      .halt ERROR_EOF ⟨i, 768 :: rest, tags, tc, nm⟩ := by
  simp [step, OP_SET_NAME, OP_EXTEND_LIST, OP_EXTEND_COMPOUND, *]

theorem step_ecomp_end (p : Nat) (rest2 : List Nat) (h : ¬ i + 1 > bs)
    (hbyte : byteAt buffer i = 0) :
    step allocOk buffer bs cap native ⟨i, 768 :: p :: rest2, tags, tc, nm⟩ =
      .next ⟨i + 1, rest2, setChildren tags p (tags.length - p - 1), tc,
        nm⟩ := by
  simp [step, OP_SET_NAME, OP_EXTEND_LIST, OP_EXTEND_COMPOUND, *]

theorem step_ecomp_more (h : ¬ i + 1 > bs) (hbyte : ¬ byteAt buffer i = 0)
    (hcap : ¬ rest.length + 2 > cap) :
    step allocOk buffer bs cap native ⟨i, 768 :: rest, tags, tc, nm⟩ =
      .next ⟨i, OP_SET_NAME :: OP_EXTEND_COMPOUND :: rest, tags, tc, nm⟩ := by
  simp [step, OP_SET_NAME, OP_EXTEND_LIST, OP_EXTEND_COMPOUND, *]

theorem step_ecomp_depth (h : ¬ i + 1 > bs) (hbyte : ¬ byteAt buffer i = 0)
    (hcap : rest.length + 2 > cap) :
    step allocOk buffer bs cap native ⟨i, 768 :: rest, tags, tc, nm⟩ =
      .halt ERROR_DEPTH ⟨i, 768 :: rest, tags, tc, nm⟩ := by
  simp [step, OP_SET_NAME, OP_EXTEND_LIST, OP_EXTEND_COMPOUND, *]

theorem step_setname_eof (h : i + 3 > bs) :
    step allocOk buffer bs cap native ⟨i, 256 :: rest, tags, tc, nm⟩ =
      .halt ERROR_EOF ⟨i, 256 :: rest, tags, tc, nm⟩ := by
  simp [step, OP_SET_NAME, OP_EXTEND_LIST, OP_EXTEND_COMPOUND, *]

theorem step_setname_depth (h : ¬ i + 3 > bs) (hcap : rest.length + 1 > cap) :
    step allocOk buffer bs cap native ⟨i, 256 :: rest, tags, tc, nm⟩ =
      .halt ERROR_DEPTH ⟨i, 256 :: rest, tags, tc, nm⟩ := by
  simp [step, OP_SET_NAME, OP_EXTEND_LIST, OP_EXTEND_COMPOUND, *]

theorem step_setname (h : ¬ i + 3 > bs) (hcap : ¬ rest.length + 1 > cap) :
    step allocOk buffer bs cap native ⟨i, 256 :: rest, tags, tc, nm⟩ =
      .next ⟨i + 3 + decode16 native buffer (i + 1),
        byteAt buffer i :: rest, tags, tc,
        decode16 native buffer (i + 1)⟩ := by
  simp [step, OP_SET_NAME, OP_EXTEND_LIST, OP_EXTEND_COMPOUND, *]

theorem step_invalid {op : Nat} (h1 : ¬ (1 ≤ op ∧ op ≤ 6)) (h2 : op ≠ 8)
    (h3 : ¬ (op = 7 ∨ op = 11 ∨ op = 12)) (h4 : op ≠ 9) (h5 : op ≠ 512)
    (h6 : op ≠ 10) (h7 : op ≠ 768) (h8 : op ≠ 256) :
    step allocOk buffer bs cap native ⟨i, op :: rest, tags, tc, nm⟩ =
      .halt ERROR_TYPE ⟨i, op :: rest, tags, tc, nm⟩ := by
  simp only [step]
  rw [if_neg h1, if_neg h2, if_neg h3, if_neg h4,
    if_neg (show ¬ op = OP_EXTEND_LIST from h5), if_neg h6,
    if_neg (show ¬ op = OP_EXTEND_COMPOUND from h7),
    if_neg (show ¬ op = OP_SET_NAME from h8)]

end StepEqns

/-! ## Inversion lemmas -/

theorem pushTag_next {allocOk : Nat → Bool} {bs : Nat} {s s' : ScanState}
    {t : Tag} (h : pushTag allocOk bs s t = .next s') :
    s'.i = s.i ∧ s'.ops = s.ops ∧ s'.curName = s.curName ∧
      s'.tags = s.tags ++ [t] ∧ s.i ≤ bs := by
  unfold pushTag at h
  split at h
  all_goals try split at h
  all_goals try split at h
  all_goals try split at h
  all_goals first
    | (cases h; exact ⟨rfl, rfl, rfl, rfl, by omega⟩)
    | simp at h

theorem pushTag_halt {allocOk : Nat → Bool} {bs : Nat} {s s' : ScanState}
    {t : Tag} {st : Nat} (h : pushTag allocOk bs s t = .halt st s') :
    s' = s ∧ (st = 1 ∧ s.i > bs ∨ st = 4) := by
  unfold pushTag at h
  split at h
  all_goals try split at h
  all_goals try split at h
  all_goals try split at h
  all_goals first
    | (cases h; exact ⟨rfl, Or.inl ⟨rfl, by omega⟩⟩)
    | (cases h; exact ⟨rfl, Or.inr rfl⟩)
    | simp at h

theorem StackSeg.inv_dispatch {buffer : List Nat} {tags : List Tag}
    {t : Nat} {rest : List Nat} {hi : Nat}
    (h : StackSeg buffer tags (t :: rest) hi) (ht : t < 256) :
    StackSeg buffer tags rest hi := by
  cases h with
  | name hsub => exact absurd ht (by norm_num [OP_SET_NAME])
  | dispatch _ hsub => exact hsub
  | elist _ _ _ _ _ _ _ _ => exact absurd ht (by norm_num [OP_EXTEND_LIST])
  | ecomp _ _ _ _ => exact absurd ht (by norm_num [OP_EXTEND_COMPOUND])

theorem StackSeg.inv_name {buffer : List Nat} {tags : List Tag}
    {rest : List Nat} {hi : Nat}
    (h : StackSeg buffer tags (OP_SET_NAME :: rest) hi) :
    StackSeg buffer tags rest hi := by
  cases h with
  | name hsub => exact hsub
  | dispatch hlt hsub => exact absurd hlt (by norm_num [OP_SET_NAME])

theorem StackSeg.inv_elist {buffer : List Nat} {tags : List Tag}
    {r s p : Nat} {rest : List Nat} {hi : Nat}
    (h : StackSeg buffer tags (OP_EXTEND_LIST :: r :: s :: p :: rest) hi) :
    r < 2 ^ 32 ∧ 6 < s ∧ s < 256 ∧ p < tags.length ∧
      (tags.getD p dTag).type = 9 ∧
      byteAt buffer ((tags.getD p dTag).payload - 5) = s ∧
      Tiles buffer tags (p + 1) hi ∧ StackSeg buffer tags rest p := by
  cases h with
  | dispatch hlt hsub => exact absurd hlt (by norm_num [OP_EXTEND_LIST])
  | elist hr hs1 hs2 hp htype hbyte htil hsub =>
    exact ⟨hr, hs1, hs2, hp, htype, hbyte, htil, hsub⟩

theorem StackSeg.inv_ecomp {buffer : List Nat} {tags : List Tag}
    {p : Nat} {rest : List Nat} {hi : Nat}
    (h : StackSeg buffer tags (OP_EXTEND_COMPOUND :: p :: rest) hi) :
    p < tags.length ∧ (tags.getD p dTag).type = 10 ∧
      Tiles buffer tags (p + 1) hi ∧ StackSeg buffer tags rest p := by
  cases h with
  | dispatch hlt hsub => exact absurd hlt (by norm_num [OP_EXTEND_COMPOUND])
  | ecomp hp htype htil hsub => exact ⟨hp, htype, htil, hsub⟩

/-! ## Preservation of the master invariant -/

theorem getD_mem {α : Type} (l : List α) (p : Nat) (d : α) (h : p < l.length) :
    l.getD p d ∈ l := by
  induction l generalizing p with
  | nil => simp at h
  | cons a l ih =>
    cases p with
    | zero => exact List.mem_cons_self _ _
    | succ p => exact List.mem_cons_of_mem _ (ih p (by simpa using h))

theorem isContainer_false_of_type {buffer : List Nat} {t : Tag}
    (h9 : t.type ≠ 9) (h10 : t.type ≠ 10) : isContainer buffer t = false := by
  simp [isContainer, h9, h10]

theorem isContainer_false_list {buffer : List Nat} {t : Tag}
    (h9 : t.type = 9) (hb : byteAt buffer (t.payload - 5) ≤ 6) :
    isContainer buffer t = false := by
  simp [isContainer, h9]
  omega

theorem isContainer_true_list {buffer : List Nat} {t : Tag}
    (h9 : t.type = 9) (hb : 6 < byteAt buffer (t.payload - 5)) :
    isContainer buffer t = true := by
  simp [isContainer, h9]
  omega

theorem isContainer_true_compound {buffer : List Nat} {t : Tag}
    (h10 : t.type = 10) : isContainer buffer t = true := by
  simp [isContainer, h10]

/-- Emitting a non-container descriptor through `pushTag` preserves the
invariant. -/
theorem inv_of_pushTag_leaf {allocOk : Nat → Bool} {buffer : List Nat}
    {bs cap : Nat} {i' op nm tc : Nat} {rest : List Nat} {tags : List Tag}
    {t : Tag} {s' : ScanState}
    (seg : StackSeg buffer tags (op :: rest) tags.length)
    (hop : op < 256)
    (len_le : (op :: rest).length ≤ cap)
    (spans : ∀ x ∈ tags, spanFits buffer bs x)
    (arr32 : ∀ x ∈ tags, x.type = 7 ∨ x.type = 11 ∨ x.type = 12 →
      x.children < 2 ^ 32)
    (h : pushTag allocOk bs ⟨i', rest, tags, tc, nm⟩ t = .next s')
    (hc : isContainer buffer t = false)
    (hspan : i' ≤ bs → spanFits buffer bs t)
    (h32 : t.type = 7 ∨ t.type = 11 ∨ t.type = 12 → t.children < 2 ^ 32) :
    Inv buffer bs cap s' := by
  obtain ⟨hi', hops', hnm', htags', hle'⟩ := pushTag_next h
  dsimp only at hi' hops' hnm' htags' hle'
  refine ⟨?_, ?_, ?_, ?_⟩
  · rw [hops', htags']
    have := (seg.inv_dispatch hop).snoc_leaf rfl hc
    simpa using this
  · rw [hops']
    simp only [List.length_cons] at len_le
    omega
  · rw [htags']
    intro x hx
    rcases List.mem_append.mp hx with hmem | hmem
    · exact spans x hmem
    · rw [List.mem_singleton.mp hmem]
      exact hspan hle'
  · rw [htags']
    intro x hx
    rcases List.mem_append.mp hx with hmem | hmem
    · exact arr32 x hmem
    · rw [List.mem_singleton.mp hmem]
      exact h32

theorem spanFits_mk (buffer : List Nat) (bs payload children name ty : Nat)
    (h1 : payload ≤ bs)
    (h2 : 1 ≤ ty ∧ ty ≤ 6 → payload + numeric_sizes ty ≤ bs)
    (h3 : ty = 8 → payload + children ≤ bs)
    (h4 : ty = 7 ∨ ty = 11 ∨ ty = 12 →
      payload + (4 + children * numeric_sizes ty) % 2 ^ 32 ≤ bs + 4)
    (h5 : ty = 9 → byteAt buffer (payload - 5) ≤ 6 →
      payload +
        (5 + children * numeric_sizes (byteAt buffer (payload - 5))) %
          2 ^ 32 ≤ bs + 5) :
    spanFits buffer bs ⟨payload, children, name, ty⟩ :=
  ⟨h1, h2, h3, h4, h5⟩

/-- Replacing the children count of a container descriptor (Compound or
non-numeric List) keeps its declared span inside the buffer. -/
theorem spanFits_setChildren_container {buffer : List Nat} {bs : Nat}
    {t : Tag} {c : Nat} (hold : spanFits buffer bs t)
    (hcont : t.type = 10 ∨ t.type = 9 ∧ 6 < byteAt buffer (t.payload - 5)) :
    spanFits buffer bs { t with children := c } := by
  obtain ⟨h1, _, _, _, _⟩ := hold
  refine ⟨h1, ?_, ?_, ?_, ?_⟩ <;> dsimp only <;> intros <;> omega


/-- One loop iteration preserves the master invariant. -/
theorem inv_step {allocOk : Nat → Bool} {buffer : List Nat} {bs cap : Nat}
    {native : Bool} {s s' : ScanState}
    (hInv : Inv buffer bs cap s)
    (h : step allocOk buffer bs cap native s = .next s') :
    Inv buffer bs cap s' := by
  obtain ⟨i, ops, tags, tc, nm⟩ := s
  obtain ⟨seg, len_le, spans, arr32⟩ := hInv
  dsimp only at seg len_le spans arr32
  cases ops with
  | nil => rw [step_nil] at h; simp at h
  | cons op rest =>
    by_cases h16 : 1 ≤ op ∧ op ≤ 6
    · -- numeric tag
      rw [step_numeric _ _ _ _ _ _ _ _ _ _ h16.1 h16.2] at h
      refine inv_of_pushTag_leaf seg (by omega) len_le spans arr32 h
        (isContainer_false_of_type (show op ≠ 9 by omega)
          (show op ≠ 10 by omega))
        (fun hle => ?_) (fun habs => absurd (show op = 7 ∨ op = 11 ∨ op = 12
          from habs) (by omega))
      exact spanFits_mk buffer bs i 0 nm op (by omega) (fun _ => by omega)
        (fun _ => by omega) (fun _ => by omega) (fun _ _ => by omega)
    · by_cases h8 : op = 8
      · -- string tag
        subst h8
        by_cases heof : i + 2 > bs
        · rw [step_string_eof _ _ _ _ _ _ _ _ _ _ heof] at h; simp at h
        · rw [step_string _ _ _ _ _ _ _ _ _ _ heof] at h
          refine inv_of_pushTag_leaf seg (by omega) len_le spans arr32 h
            (isContainer_false_of_type (show (8 : Nat) ≠ 9 by omega)
              (show (8 : Nat) ≠ 10 by omega))
            (fun hle => ?_) (fun habs =>
              absurd (show (8 : Nat) = 7 ∨ (8 : Nat) = 11 ∨ (8 : Nat) = 12
                from habs) (by omega))
          exact spanFits_mk buffer bs (i + 2) (decode16 native buffer i) nm 8
            (by omega) (fun hh => by omega) (fun _ => by omega)
            (fun hh => by omega) (fun hh _ => by omega)
      · by_cases h7 : op = 7 ∨ op = 11 ∨ op = 12
        · -- array tag
          by_cases heof : i + 4 > bs
          · rw [step_array_eof _ _ _ _ _ _ _ _ _ _ h7 heof] at h; simp at h
          · rw [step_array _ _ _ _ _ _ _ _ _ _ h7 heof] at h
            refine inv_of_pushTag_leaf seg (by omega) len_le spans arr32 h
              (isContainer_false_of_type (show op ≠ 9 by omega)
                (show op ≠ 10 by omega))
              (fun hle => ?_) (fun _ => decode32_lt native buffer i)
            exact spanFits_mk buffer bs (i + 4) (decode32 native buffer i) nm
              op (by omega) (fun hh => by omega) (fun hh => by omega)
              (fun _ => by omega) (fun hh _ => by omega)
        · by_cases h9 : op = 9
          · -- list tag
            subst h9
            by_cases heof : i + 5 > bs
            · rw [step_list_eof _ _ _ _ _ _ _ _ _ _ heof] at h; simp at h
            · by_cases hsub : byteAt buffer i ≤ 6
              · -- numeric sublist: emitted as a leaf in one go
                rw [step_list_num _ _ _ _ _ _ _ _ _ _ heof hsub] at h
                refine inv_of_pushTag_leaf seg (by omega) len_le spans arr32 h
                  (isContainer_false_list rfl
                    (show byteAt buffer i ≤ 6 from hsub))
                  (fun hle => ?_) (fun habs =>
                    absurd (show (9 : Nat) = 7 ∨ (9 : Nat) = 11 ∨
                      (9 : Nat) = 12 from habs) (by omega))
                refine spanFits_mk buffer bs (i + 5)
                  (decode32 native buffer (i + 1)) nm 9 (by omega)
                  (fun hh => by omega) (fun hh => by omega)
                  (fun hh => by omega) (fun _ _ => ?_)
                exact (by omega : i + 5 + (5 + decode32 native buffer (i + 1) *
                  numeric_sizes (byteAt buffer i)) % 2 ^ 32 ≤ bs + 5)
              · by_cases hcap : rest.length + 4 > cap
                · rw [step_list_depth _ _ _ _ _ _ _ _ _ _ heof hsub hcap] at h
                  simp at h
                · -- non-numeric list: push an EXTEND_LIST frame and emit
                  rw [step_list_push _ _ _ _ _ _ _ _ _ _ heof hsub hcap] at h
                  obtain ⟨hi', hops', hnm', htags', hle'⟩ := pushTag_next h
                  dsimp only at hi' hops' hnm' htags' hle'
                  have hsegrest := seg.inv_dispatch (by omega)
                  refine ⟨?_, ?_, ?_, ?_⟩
                  · rw [hops', htags']
                    simp only [List.length_append, List.length_singleton]
                    refine StackSeg.elist (decode32_lt native buffer (i + 1))
                      (by omega) (byteAt_lt buffer i) (by simp) ?_ ?_ ?_ ?_
                    · rw [getD_append_self]
                    · rw [getD_append_self]
                      exact (show byteAt buffer (i + 5 - 5) = byteAt buffer i
                        from rfl)
                    · exact .nil _
                    · exact hsegrest.appendTags (Nat.le_refl _)
                  · rw [hops']
                    simp only [List.length_cons]
                    omega
                  · rw [htags']
                    intro x hx
                    rcases List.mem_append.mp hx with hmem | hmem
                    · exact spans x hmem
                    · rw [List.mem_singleton.mp hmem]
                      refine spanFits_mk buffer bs (i + 5) 0 nm 9 (by omega)
                        (fun hh => by omega) (fun hh => by omega)
                        (fun hh => by omega) (fun _ hb => ?_)
                      exact absurd (show byteAt buffer i ≤ 6 from hb) hsub
                  · rw [htags']
                    intro x hx
                    rcases List.mem_append.mp hx with hmem | hmem
                    · exact arr32 x hmem
                    · rw [List.mem_singleton.mp hmem]
                      intro habs
                      exact absurd (show (9 : Nat) = 7 ∨ (9 : Nat) = 11 ∨
                        (9 : Nat) = 12 from habs) (by omega)
          · by_cases h512 : op = 512
            · -- EXTEND_LIST
              subst h512
              cases seg with
              | dispatch hlt _ => exact absurd hlt (by omega)
              | @elist r s0 p rest3 _ hr hs1 hs2 hp htype hbyte htil hsub =>
                by_cases hrz : r = 0
                · subst hrz
                  rw [step_elist_zero] at h
                  cases h
                  have hcont := @isContainer_true_list buffer
                    (tags.getD p dTag) htype (by rw [hbyte]; exact hs1)
                  refine ⟨?_, ?_, ?_, ?_⟩
                  · dsimp only
                    rw [setChildren_length]
                    exact hsub.close rfl hp hcont htil
                  · dsimp only
                    simp only [List.length_cons] at len_le
                    omega
                  · dsimp only
                    intro x hx
                    rcases mem_setChildren _ _ _ _ hx with hmem | ⟨hplt, hxeq⟩
                    · exact spans x hmem
                    · subst hxeq
                      exact spanFits_setChildren_container
                        (spans _ (getD_mem tags p dTag hp))
                        (Or.inr ⟨htype, by rw [hbyte]; exact hs1⟩)
                  · dsimp only
                    intro x hx
                    rcases mem_setChildren _ _ _ _ hx with hmem | ⟨hplt, hxeq⟩
                    · exact arr32 x hmem
                    · subst hxeq
                      intro habs
                      exact absurd
                        (show (tags.getD p dTag).type = 7 ∨
                          (tags.getD p dTag).type = 11 ∨
                          (tags.getD p dTag).type = 12 from habs)
                        (by omega)
                · by_cases hcap : (p :: rest3).length + 4 > cap
                  · rw [step_elist_depth _ _ _ _ _ _ _ _ _ s0 _ hrz hcap] at h
                    simp at h
                  · rw [step_elist_more _ _ _ _ _ _ _ _ _ s0 _ hrz hcap] at h
                    cases h
                    refine ⟨?_, ?_, ?_, ?_⟩
                    · dsimp only
                      exact .dispatch (by omega)
                        (.elist (by omega) hs1 hs2 hp htype hbyte htil hsub)
                    · dsimp only
                      simp only [List.length_cons] at hcap ⊢
                      omega
                    · exact spans
                    · exact arr32
            · by_cases h10 : op = 10
              · -- compound tag
                subst h10
                by_cases hcap : rest.length + 2 > cap
                · rw [step_compound_depth _ _ _ _ _ _ _ _ _ _ hcap] at h
                  simp at h
                · rw [step_compound _ _ _ _ _ _ _ _ _ _ hcap] at h
                  obtain ⟨hi', hops', hnm', htags', hle'⟩ := pushTag_next h
                  dsimp only at hi' hops' hnm' htags' hle'
                  have hsegrest := seg.inv_dispatch (by omega)
                  refine ⟨?_, ?_, ?_, ?_⟩
                  · rw [hops', htags']
                    simp only [List.length_append, List.length_singleton]
                    refine StackSeg.ecomp (by simp) ?_ (.nil _)
                      (hsegrest.appendTags (Nat.le_refl _))
                    rw [getD_append_self]
                  · rw [hops']
                    simp only [List.length_cons]
                    omega
                  · rw [htags']
                    intro x hx
                    rcases List.mem_append.mp hx with hmem | hmem
                    · exact spans x hmem
                    · rw [List.mem_singleton.mp hmem]
                      exact spanFits_mk buffer bs i 0 nm 10 (by omega)
                        (fun hh => by omega) (fun hh => by omega)
                        (fun hh => by omega) (fun hh _ => by omega)
                  · rw [htags']
                    intro x hx
                    rcases List.mem_append.mp hx with hmem | hmem
                    · exact arr32 x hmem
                    · rw [List.mem_singleton.mp hmem]
                      intro habs
                      exact absurd (show (10 : Nat) = 7 ∨ (10 : Nat) = 11 ∨
                        (10 : Nat) = 12 from habs) (by omega)
              · by_cases h768 : op = 768
                · -- EXTEND_COMPOUND
                  subst h768
                  cases seg with
                  | dispatch hlt _ => exact absurd hlt (by omega)
                  | @ecomp p rest2 _ hp htype htil hsub =>
                    by_cases heof : i + 1 > bs
                    · rw [step_ecomp_eof _ _ _ _ _ _ _ _ _ _ heof] at h
                      simp at h
                    · by_cases hbyte : byteAt buffer i = 0
                      · rw [step_ecomp_end _ _ _ _ _ _ _ _ _ _ _ heof hbyte]
                          at h
                        cases h
                        have hcont := @isContainer_true_compound buffer
                          (tags.getD p dTag) htype
                        refine ⟨?_, ?_, ?_, ?_⟩
                        · dsimp only
                          rw [setChildren_length]
                          exact hsub.close rfl hp hcont htil
                        · dsimp only
                          simp only [List.length_cons] at len_le
                          omega
                        · dsimp only
                          intro x hx
                          rcases mem_setChildren _ _ _ _ hx with
                            hmem | ⟨hplt, hxeq⟩
                          · exact spans x hmem
                          · subst hxeq
                            exact spanFits_setChildren_container
                              (spans _ (getD_mem tags p dTag hp))
                              (Or.inl htype)
                        · dsimp only
                          intro x hx
                          rcases mem_setChildren _ _ _ _ hx with
                            hmem | ⟨hplt, hxeq⟩
                          · exact arr32 x hmem
                          · subst hxeq
                            intro habs
                            exact absurd
                              (show (tags.getD p dTag).type = 7 ∨
                                (tags.getD p dTag).type = 11 ∨
                                (tags.getD p dTag).type = 12 from habs)
                              (by omega)
                      · by_cases hcap : (p :: rest2).length + 2 > cap
                        · rw [step_ecomp_depth _ _ _ _ _ _ _ _ _ _ heof hbyte
                            hcap] at h
                          simp at h
                        · rw [step_ecomp_more _ _ _ _ _ _ _ _ _ _ heof hbyte
                            hcap] at h
                          cases h
                          refine ⟨?_, ?_, ?_, ?_⟩
                          · dsimp only
                            exact .name (.ecomp hp htype htil hsub)
                          · dsimp only
                            simp only [List.length_cons] at hcap ⊢
                            omega
                          · exact spans
                          · exact arr32
                · by_cases h256 : op = 256
                  · -- SET_NAME
                    subst h256
                    by_cases heof : i + 3 > bs
                    · rw [step_setname_eof _ _ _ _ _ _ _ _ _ _ heof] at h
                      simp at h
                    · by_cases hcap : rest.length + 1 > cap
                      · rw [step_setname_depth _ _ _ _ _ _ _ _ _ _ heof hcap]
                          at h
                        simp at h
                      · rw [step_setname _ _ _ _ _ _ _ _ _ _ heof hcap] at h
                        cases h
                        refine ⟨?_, ?_, ?_, ?_⟩
                        · dsimp only
                          exact .dispatch (byteAt_lt buffer i) seg.inv_name
                        · dsimp only
                          simp only [List.length_cons] at len_le ⊢
                          omega
                        · exact spans
                        · exact arr32
                  · -- invalid tag id
                    rw [step_invalid _ _ _ _ _ _ _ _ _ _ h16 h8 h7 h9 h512 h10
                      h768 h256] at h
                    simp at h

/-- From an invariant state, every halt carries a genuine scanner status
(0 on success, `NBTLIB_ERROR_*` otherwise — never the model-internal 5),
and a status-0 halt happens exactly when the op stack is empty. -/
theorem step_halt_status {allocOk : Nat → Bool} {buffer : List Nat}
    {bs cap : Nat} {native : Bool} {s s' : ScanState} {st : Nat}
    (hInv : Inv buffer bs cap s)
    (h : step allocOk buffer bs cap native s = .halt st s') :
    st ≤ 4 ∧ (st = 0 → s' = s ∧ s.ops = []) := by
  obtain ⟨i, ops, tags, tc, nm⟩ := s
  obtain ⟨seg, len_le, spans, arr32⟩ := hInv
  dsimp only at seg len_le spans arr32
  cases ops with
  | nil =>
    rw [step_nil] at h
    cases h
    exact ⟨by omega, fun _ => ⟨rfl, rfl⟩⟩
  | cons op rest =>
    by_cases h16 : 1 ≤ op ∧ op ≤ 6
    · rw [step_numeric _ _ _ _ _ _ _ _ _ _ h16.1 h16.2] at h
      obtain ⟨_, hst⟩ := pushTag_halt h
      refine ⟨by omega, fun h0 => absurd h0 (by omega)⟩
    · by_cases h8 : op = 8
      · subst h8
        by_cases heof : i + 2 > bs
        · rw [step_string_eof _ _ _ _ _ _ _ _ _ _ heof] at h
          cases h
          exact ⟨by norm_num [ERROR_EOF], fun h0 => absurd h0 (by norm_num [ERROR_EOF])⟩
        · rw [step_string _ _ _ _ _ _ _ _ _ _ heof] at h
          obtain ⟨_, hst⟩ := pushTag_halt h
          refine ⟨by omega, fun h0 => absurd h0 (by omega)⟩
      · by_cases h7 : op = 7 ∨ op = 11 ∨ op = 12
        · by_cases heof : i + 4 > bs
          · rw [step_array_eof _ _ _ _ _ _ _ _ _ _ h7 heof] at h
            cases h
            exact ⟨by norm_num [ERROR_EOF], fun h0 => absurd h0 (by norm_num [ERROR_EOF])⟩
          · rw [step_array _ _ _ _ _ _ _ _ _ _ h7 heof] at h
            obtain ⟨_, hst⟩ := pushTag_halt h
            refine ⟨by omega, fun h0 => absurd h0 (by omega)⟩
        · by_cases h9 : op = 9
          · subst h9
            by_cases heof : i + 5 > bs
            · rw [step_list_eof _ _ _ _ _ _ _ _ _ _ heof] at h
              cases h
              exact ⟨by norm_num [ERROR_EOF], fun h0 => absurd h0 (by norm_num [ERROR_EOF])⟩
            · by_cases hsub : byteAt buffer i ≤ 6
              · rw [step_list_num _ _ _ _ _ _ _ _ _ _ heof hsub] at h
                obtain ⟨_, hst⟩ := pushTag_halt h
                refine ⟨by omega, fun h0 => absurd h0 (by omega)⟩
              · by_cases hcap : rest.length + 4 > cap
                · rw [step_list_depth _ _ _ _ _ _ _ _ _ _ heof hsub hcap] at h
                  cases h
                  exact ⟨by norm_num [ERROR_DEPTH], fun h0 => absurd h0 (by norm_num [ERROR_DEPTH])⟩
                · rw [step_list_push _ _ _ _ _ _ _ _ _ _ heof hsub hcap] at h
                  obtain ⟨_, hst⟩ := pushTag_halt h
                  refine ⟨by omega, fun h0 => absurd h0 (by omega)⟩
          · by_cases h512 : op = 512
            · subst h512
              cases seg with
              | dispatch hlt _ => exact absurd hlt (by omega)
              | @elist r s0 p rest3 _ hr hs1 hs2 hp htype hbyte htil hsub =>
                by_cases hrz : r = 0
                · subst hrz
                  rw [step_elist_zero] at h
                  simp at h
                · by_cases hcap : (p :: rest3).length + 4 > cap
                  · rw [step_elist_depth _ _ _ _ _ _ _ _ _ s0 _ hrz hcap] at h
                    cases h
                    exact ⟨by norm_num [ERROR_DEPTH], fun h0 => absurd h0 (by norm_num [ERROR_DEPTH])⟩
                  · rw [step_elist_more _ _ _ _ _ _ _ _ _ s0 _ hrz hcap] at h
                    simp at h
            · by_cases h10 : op = 10
              · subst h10
                by_cases hcap : rest.length + 2 > cap
                · rw [step_compound_depth _ _ _ _ _ _ _ _ _ _ hcap] at h
                  cases h
                  exact ⟨by norm_num [ERROR_DEPTH], fun h0 => absurd h0 (by norm_num [ERROR_DEPTH])⟩
                · rw [step_compound _ _ _ _ _ _ _ _ _ _ hcap] at h
                  obtain ⟨_, hst⟩ := pushTag_halt h
                  refine ⟨by omega, fun h0 => absurd h0 (by omega)⟩
              · by_cases h768 : op = 768
                · subst h768
                  cases seg with
                  | dispatch hlt _ => exact absurd hlt (by omega)
                  | @ecomp p rest2 _ hp htype htil hsub =>
                    by_cases heof : i + 1 > bs
                    · rw [step_ecomp_eof _ _ _ _ _ _ _ _ _ _ heof] at h
                      cases h
                      exact ⟨by norm_num [ERROR_EOF], fun h0 => absurd h0 (by norm_num [ERROR_EOF])⟩
                    · by_cases hbyte : byteAt buffer i = 0
                      · rw [step_ecomp_end _ _ _ _ _ _ _ _ _ _ _ heof hbyte] at h
                        simp at h
                      · by_cases hcap : (p :: rest2).length + 2 > cap
                        · rw [step_ecomp_depth _ _ _ _ _ _ _ _ _ _ heof hbyte hcap] at h
                          cases h
                          exact ⟨by norm_num [ERROR_DEPTH], fun h0 => absurd h0 (by norm_num [ERROR_DEPTH])⟩
                        · rw [step_ecomp_more _ _ _ _ _ _ _ _ _ _ heof hbyte hcap] at h
                          simp at h
                · by_cases h256 : op = 256
                  · subst h256
                    by_cases heof : i + 3 > bs
                    · rw [step_setname_eof _ _ _ _ _ _ _ _ _ _ heof] at h
                      cases h
                      exact ⟨by norm_num [ERROR_EOF], fun h0 => absurd h0 (by norm_num [ERROR_EOF])⟩
                    · by_cases hcap : rest.length + 1 > cap
                      · rw [step_setname_depth _ _ _ _ _ _ _ _ _ _ heof hcap] at h
                        cases h
                        exact ⟨by norm_num [ERROR_DEPTH], fun h0 => absurd h0 (by norm_num [ERROR_DEPTH])⟩
                      · rw [step_setname _ _ _ _ _ _ _ _ _ _ heof hcap] at h
                        simp at h
                  · rw [step_invalid _ _ _ _ _ _ _ _ _ _ h16 h8 h7 h9 h512 h10 h768 h256] at h
                    cases h
                    exact ⟨by norm_num [ERROR_TYPE], fun h0 => absurd h0 (by norm_num [ERROR_TYPE])⟩

/-- Along any terminated run from an invariant state, the status is a
genuine scanner status, and on success the final state satisfies the
invariant with an empty op stack. -/
theorem run_inv {allocOk : Nat → Bool} {buffer : List Nat} {bs cap : Nat}
    {native : Bool} :
    ∀ (fuel : Nat) (s : ScanState), Inv buffer bs cap s →
    ∀ {st : Nat} {s' : ScanState},
      run allocOk buffer bs cap native fuel s = some (st, s') →
      st ≤ 4 ∧ (st = 0 → Inv buffer bs cap s' ∧ s'.ops = []) := by
  intro fuel
  induction fuel with
  | zero => intro s _ st s' h; simp [run] at h
  | succ n ih =>
    intro s hInv st s' h
    rw [run] at h
    cases hstep : step allocOk buffer bs cap native s with
    | halt st0 s0 =>
      rw [hstep] at h
      cases h
      obtain ⟨hle, h0⟩ := step_halt_status hInv hstep
      refine ⟨hle, fun hz => ?_⟩
      obtain ⟨rfl, hops⟩ := h0 hz
      exact ⟨hInv, hops⟩
    | next s0 =>
      rw [hstep] at h
      exact ih s0 (inv_step hInv hstep) h

/-! ## Termination: the measure decreases at every step -/

theorem measure_lt_of {P P2 W W2 B : Nat} (_hW : W < B) (hW2 : W2 < B)
    (h : P2 < P ∨ (P2 = P ∧ W2 < W)) : P2 * B + W2 < P * B + W := by
  rcases h with h | ⟨rfl, h⟩
  · have h1 : P2 * B + W2 < (P2 + 1) * B := by
      have : (P2 + 1) * B = P2 * B + B := by ring
      omega
    have h2 : (P2 + 1) * B ≤ P * B := Nat.mul_le_mul_right _ (by omega)
    omega
  · omega

theorem measure_lt_of_le {P P2 W W2 B : Nat} (hW : W < B) (hW2 : W2 < B)
    (hP : P2 ≤ P) (hw : W2 < W) : P2 * B + W2 < P * B + W := by
  rcases Nat.lt_or_ge P2 P with h | h
  · exact measure_lt_of hW hW2 (Or.inl h)
  · have : P2 = P := by omega
    exact measure_lt_of hW hW2 (Or.inr ⟨this, hw⟩)

theorem numeric_sizes_pos {op : Nat} (h1 : 1 ≤ op) (h2 : op ≤ 6) :
    1 ≤ numeric_sizes op := by
  interval_cases op <;> simp [numeric_sizes]

theorem headPenalty_le_one (ops : List Nat) : headPenalty ops ≤ 1 := by
  unfold headPenalty
  split <;> omega

theorem headPenalty_name (ops : List Nat) : headPenalty (256 :: ops) = 0 :=
  rfl

theorem stackWeight_lt_bound {buffer : List Nat} {bs cap : Nat}
    {s : ScanState} (hInv : Inv buffer bs cap s) :
    stackWeight s.ops < 2 ^ 35 * cap + 1 := by
  have h1 := stackWeight_le_of_seg hInv.seg
  have h2 := Nat.mul_le_mul_left (2 ^ 35) hInv.len_le
  omega

/-- Every continuing iteration strictly decreases the scan measure. -/
theorem measure_step {allocOk : Nat → Bool} {buffer : List Nat}
    {bs cap : Nat} {native : Bool} {s s' : ScanState}
    (hInv : Inv buffer bs cap s)
    (h : step allocOk buffer bs cap native s = .next s') :
    scanMeasure bs cap s' < scanMeasure bs cap s := by
  have hWs := stackWeight_lt_bound hInv
  have hWs' := stackWeight_lt_bound (inv_step hInv h)
  obtain ⟨i, ops, tags, tc, nm⟩ := s
  obtain ⟨seg, len_le, spans, arr32⟩ := hInv
  dsimp only at seg len_le spans arr32 hWs
  unfold scanMeasure
  dsimp only
  cases ops with
  | nil => rw [step_nil] at h; simp at h
  | cons op rest =>
    by_cases h16 : 1 ≤ op ∧ op ≤ 6
    · rw [step_numeric _ _ _ _ _ _ _ _ _ _ h16.1 h16.2] at h
      obtain ⟨hi', hops', hnm', htags', hle'⟩ := pushTag_next h
      dsimp only at hi' hops' hnm' htags' hle'
      rw [hops'] at hWs'
      rw [hi', hops']
      refine measure_lt_of hWs hWs' (Or.inl ?_)
      have hsz := numeric_sizes_pos h16.1 h16.2
      have hp1 := headPenalty_le_one rest
      have hp2 := headPenalty_le_one (op :: rest)
      unfold progress
      omega
    · by_cases h8 : op = 8
      · subst h8
        by_cases heof : i + 2 > bs
        · rw [step_string_eof _ _ _ _ _ _ _ _ _ _ heof] at h; simp at h
        · rw [step_string _ _ _ _ _ _ _ _ _ _ heof] at h
          obtain ⟨hi', hops', hnm', htags', hle'⟩ := pushTag_next h
          dsimp only at hi' hops' hnm' htags' hle'
          rw [hops'] at hWs'
          rw [hi', hops']
          refine measure_lt_of hWs hWs' (Or.inl ?_)
          have hp1 := headPenalty_le_one rest
          have hp2 := headPenalty_le_one (8 :: rest)
          unfold progress
          omega
      · by_cases h7 : op = 7 ∨ op = 11 ∨ op = 12
        · by_cases heof : i + 4 > bs
          · rw [step_array_eof _ _ _ _ _ _ _ _ _ _ h7 heof] at h; simp at h
          · rw [step_array _ _ _ _ _ _ _ _ _ _ h7 heof] at h
            obtain ⟨hi', hops', hnm', htags', hle'⟩ := pushTag_next h
            dsimp only at hi' hops' hnm' htags' hle'
            rw [hops'] at hWs'
            rw [hi', hops']
            have hp1 := headPenalty_le_one rest
            have hp2 : headPenalty (op :: rest) = 1 :=
              headPenalty_cons _ _ (by omega)
            by_cases hz :
                (4 + decode32 native buffer i * numeric_sizes op) % 2 ^ 32 = 0
            · -- the uint32 skip wraps to 0: the input stalls, but the popped
              -- dispatch word shrinks the stack weight
              rw [hz]
              refine measure_lt_of_le hWs hWs' (by unfold progress; omega) ?_
              rw [stackWeight_cons_lt op rest (by omega)]
              omega
            · refine measure_lt_of hWs hWs' (Or.inl ?_)
              unfold progress
              omega
        · by_cases h9 : op = 9
          · subst h9
            by_cases heof : i + 5 > bs
            · rw [step_list_eof _ _ _ _ _ _ _ _ _ _ heof] at h; simp at h
            · by_cases hsub : byteAt buffer i ≤ 6
              · rw [step_list_num _ _ _ _ _ _ _ _ _ _ heof hsub] at h
                obtain ⟨hi', hops', hnm', htags', hle'⟩ := pushTag_next h
                dsimp only at hi' hops' hnm' htags' hle'
                rw [hops'] at hWs'
                rw [hi', hops']
                have hp1 := headPenalty_le_one rest
                have hp2 : headPenalty (9 :: rest) = 1 :=
                  headPenalty_cons _ _ (by omega)
                by_cases hz : (5 + decode32 native buffer (i + 1) *
                    numeric_sizes (byteAt buffer i)) % 2 ^ 32 = 0
                · -- the uint32 skip wraps to 0: the input stalls, but the
                  -- popped dispatch word shrinks the stack weight
                  rw [hz]
                  refine measure_lt_of_le hWs hWs'
                    (by unfold progress; omega) ?_
                  rw [stackWeight_cons_lt 9 rest (by omega)]
                  omega
                · refine measure_lt_of hWs hWs' (Or.inl ?_)
                  unfold progress
                  omega
              · by_cases hcap : rest.length + 4 > cap
                · rw [step_list_depth _ _ _ _ _ _ _ _ _ _ heof hsub hcap] at h
                  simp at h
                · rw [step_list_push _ _ _ _ _ _ _ _ _ _ heof hsub hcap] at h
                  obtain ⟨hi', hops', hnm', htags', hle'⟩ := pushTag_next h
                  dsimp only at hi' hops' hnm' htags' hle'
                  rw [hops'] at hWs'
                  rw [hi', hops']
                  refine measure_lt_of hWs hWs' (Or.inl ?_)
                  have hp1 := headPenalty_le_one
                    (OP_EXTEND_LIST :: decode32 native buffer (i + 1) ::
                      byteAt buffer i :: tags.length :: rest)
                  have hp2 := headPenalty_le_one (9 :: rest)
                  unfold progress
                  omega
          · by_cases h512 : op = 512
            · subst h512
              cases seg with
              | dispatch hlt _ => exact absurd hlt (by omega)
              | @elist r s0 p rest3 _ hr hs1 hs2 hp htype hbyte htil hsub =>
                by_cases hrz : r = 0
                · subst hrz
                  rw [step_elist_zero] at h
                  cases h
                  dsimp only at hWs' ⊢
                  refine measure_lt_of_le hWs hWs' ?_ ?_
                  · have hp1 := headPenalty_le_one rest3
                    have hp2 : headPenalty (512 :: 0 :: s0 :: p :: rest3) = 1 :=
                      headPenalty_cons _ _ (by omega)
                    omega
                  · rw [show (512 : Nat) :: 0 :: s0 :: p :: rest3 =
                      (512 : Nat) :: (0 : Nat) :: s0 :: p :: rest3 from rfl,
                      stackWeight_elist]
                    omega
                · by_cases hcap : (p :: rest3).length + 4 > cap
                  · rw [step_elist_depth _ _ _ _ _ _ _ _ _ s0 _ hrz hcap] at h
                    simp at h
                  · rw [step_elist_more _ _ _ _ _ _ _ _ _ s0 _ hrz hcap] at h
                    cases h
                    dsimp only at hWs' ⊢
                    refine measure_lt_of_le hWs hWs' ?_ ?_
                    · have hp2 : headPenalty (512 :: r :: s0 :: p :: rest3) = 1 :=
                        headPenalty_cons _ _ (by omega)
                      have hp1 : headPenalty (s0 :: OP_EXTEND_LIST :: (r - 1) ::
                          s0 :: p :: rest3) = 1 :=
                        headPenalty_cons _ _ (by omega)
                      omega
                    · rw [stackWeight_elist,
                        stackWeight_cons_lt s0 _ (by omega),
                        show OP_EXTEND_LIST = 512 from rfl,
                        stackWeight_elist]
                      omega
            · by_cases h10 : op = 10
              · subst h10
                by_cases hcap : rest.length + 2 > cap
                · rw [step_compound_depth _ _ _ _ _ _ _ _ _ _ hcap] at h
                  simp at h
                · rw [step_compound _ _ _ _ _ _ _ _ _ _ hcap] at h
                  obtain ⟨hi', hops', hnm', htags', hle'⟩ := pushTag_next h
                  dsimp only at hi' hops' hnm' htags' hle'
                  rw [hops'] at hWs'
                  rw [hi', hops']
                  refine measure_lt_of_le hWs hWs' ?_ ?_
                  · have hp2 : headPenalty (10 :: rest) = 1 :=
                      headPenalty_cons _ _ (by omega)
                    have hp1 : headPenalty (OP_EXTEND_COMPOUND ::
                        tags.length :: rest) = 1 :=
                      headPenalty_cons _ _ (by norm_num [OP_EXTEND_COMPOUND])
                    omega
                  · rw [stackWeight_cons_lt 10 _ (by omega),
                      show OP_EXTEND_COMPOUND = 768 from rfl,
                      stackWeight_ecomp]
                    omega
              · by_cases h768 : op = 768
                · subst h768
                  cases seg with
                  | dispatch hlt _ => exact absurd hlt (by omega)
                  | @ecomp p rest2 _ hp htype htil hsub =>
                    by_cases heof : i + 1 > bs
                    · rw [step_ecomp_eof _ _ _ _ _ _ _ _ _ _ heof] at h
                      simp at h
                    · by_cases hbyte : byteAt buffer i = 0
                      · rw [step_ecomp_end _ _ _ _ _ _ _ _ _ _ _ heof hbyte]
                          at h
                        cases h
                        dsimp only at hWs' ⊢
                        refine measure_lt_of hWs hWs' (Or.inl ?_)
                        have hp1 := headPenalty_le_one rest2
                        have hp2 : headPenalty (768 :: p :: rest2) = 1 :=
                          headPenalty_cons _ _ (by omega)
                        unfold progress
                        omega
                      · by_cases hcap : (p :: rest2).length + 2 > cap
                        · rw [step_ecomp_depth _ _ _ _ _ _ _ _ _ _ heof hbyte
                            hcap] at h
                          simp at h
                        · rw [step_ecomp_more _ _ _ _ _ _ _ _ _ _ heof hbyte
                            hcap] at h
                          cases h
                          dsimp only at hWs' ⊢
                          refine measure_lt_of hWs hWs' (Or.inl ?_)
                          have hp2 : headPenalty (768 :: p :: rest2) = 1 :=
                            headPenalty_cons _ _ (by omega)
                          have hp1 : headPenalty (OP_SET_NAME ::
                              OP_EXTEND_COMPOUND :: p :: rest2) = 0 :=
                            headPenalty_name _
                          omega
                · by_cases h256 : op = 256
                  · subst h256
                    by_cases heof : i + 3 > bs
                    · rw [step_setname_eof _ _ _ _ _ _ _ _ _ _ heof] at h
                      simp at h
                    · by_cases hcap : rest.length + 1 > cap
                      · rw [step_setname_depth _ _ _ _ _ _ _ _ _ _ heof hcap]
                          at h
                        simp at h
                      · rw [step_setname _ _ _ _ _ _ _ _ _ _ heof hcap] at h
                        cases h
                        dsimp only at hWs' ⊢
                        refine measure_lt_of hWs hWs' (Or.inl ?_)
                        have hp1 := headPenalty_le_one
                          (byteAt buffer i :: rest)
                        have hp2 : headPenalty (256 :: rest) = 0 :=
                          headPenalty_name _
                        unfold progress
                        omega
                  · rw [step_invalid _ _ _ _ _ _ _ _ _ _ h16 h8 h7 h9 h512 h10
                      h768 h256] at h
                    simp at h

/-- With fuel above the measure, the run reaches a halt. -/
theorem run_total {allocOk : Nat → Bool} {buffer : List Nat} {bs cap : Nat}
    {native : Bool} :
    ∀ (fuel : Nat) (s : ScanState), Inv buffer bs cap s →
      scanMeasure bs cap s < fuel →
      ∃ st s', run allocOk buffer bs cap native fuel s = some (st, s') := by
  intro fuel
  induction fuel with
  | zero => intro s _ hm; omega
  | succ n ih =>
    intro s hInv hm
    rw [run]
    cases hstep : step allocOk buffer bs cap native s with
    | halt st s0 => exact ⟨st, s0, rfl⟩
    | next s0 =>
      have hm0 := measure_step hInv hstep
      exact ih s0 (inv_step hInv hstep) (by omega)

/-- The initial state satisfies the invariant as soon as the stack can
hold the initial `SET_NAME` word. -/
theorem inv_init (buffer : List Nat) (bs cap : Nat) (hcap : 1 ≤ cap) :
    Inv buffer bs cap initState := by
  refine ⟨.name (.nil (.nil 0)), ?_, ?_, ?_⟩
  · simpa [initState] using hcap
  · intro t ht; simp [initState] at ht
  · intro t ht; simp [initState] at ht

theorem measure_init_lt (bs cap : Nat) :
    scanMeasure bs cap initState < scanFuelBound bs cap := by
  have h1 : stackWeight [OP_SET_NAME] = 1 := rfl
  have h2 : headPenalty [OP_SET_NAME] = 0 := rfl
  have h3 : progress bs 0 = bs + 2 := by unfold progress; omega
  unfold scanMeasure initState scanFuelBound
  dsimp only
  rw [h1, h2, h3]
  have h4 : 2 * (bs + 2) = 2 * bs + 4 := by ring
  rw [h4]
  simp only [Nat.add_zero]
  omega

/-- The scanner core always returns: the explicit fuel bound suffices,
the status is one of 0-4, and on success the final state satisfies the
invariant with an empty op stack. -/
theorem scanRaw_some (allocOk : Nat → Bool) (buffer : List Nat)
    (stackSize byteorder : Nat) :
    ∃ st s', scanRaw allocOk buffer stackSize byteorder = some (st, s') ∧
      st ≤ 4 ∧
      (st = 0 → Inv buffer buffer.length (stackSize / 4) s' ∧
        s'.ops = []) := by
  unfold scanRaw
  by_cases hcap : 1 > stackSize / 4
  · rw [if_pos hcap]
    exact ⟨ERROR_DEPTH, initState, rfl, by norm_num [ERROR_DEPTH],
      fun h0 => absurd h0 (by norm_num [ERROR_DEPTH])⟩
  · rw [if_neg hcap]
    have hInv := inv_init buffer buffer.length (stackSize / 4) (by omega)
    obtain ⟨st, s', hrun⟩ :=
      run_total (scanFuelBound buffer.length (stackSize / 4)) initState hInv
        (measure_init_lt _ _)
    have hq := run_inv _ _ hInv hrun
    exact ⟨st, s', hrun, hq.1, hq.2⟩

/-- Every intermediate state of a loop run from an invariant state
satisfies the invariant. -/
theorem iterate_inv {allocOk : Nat → Bool} {buffer : List Nat}
    {bs cap : Nat} {native : Bool} :
    ∀ (n : Nat) (s : ScanState), Inv buffer bs cap s →
      Inv buffer bs cap (iterate allocOk buffer bs cap native n s) := by
  intro n
  induction n with
  | zero => intro s hInv; exact hInv
  | succ m ih =>
    intro s hInv
    rw [iterate]
    cases hstep : step allocOk buffer bs cap native s with
    | next s' => exact ih s' (inv_step hInv hstep)
    | halt st s' => exact hInv

/-! ## The claims -/

/-- C10: `nbtlib_scan` terminates on every input: for every buffer,
stack size, byte-order character and allocation oracle, the stack
machine halts within the explicit fuel bound (`scanRaw` never runs out
of fuel) and the returned status is 0 or one of the four
`NBTLIB_ERROR_*` codes — in particular the model-internal status 5
(fuel exhaustion or popping an `EXTEND` marker without its arguments)
never occurs. -/
theorem claim_C10 (allocOk : Nat → Bool) (buffer : List Nat)
    (stackSize byteorder : Nat) (index0 : Index) :
    (nbtlib_scan allocOk buffer stackSize byteorder index0).1 ≤ 4 ∧
      scanRaw allocOk buffer stackSize byteorder ≠ none := by
  obtain ⟨st, s', hrun, hle, _⟩ :=
    scanRaw_some allocOk buffer stackSize byteorder
  constructor
  · unfold nbtlib_scan
    rw [hrun]
    rcases st with _ | st
    · exact Nat.zero_le _
    · exact hle
  · rw [hrun]
    simp

/-- C1: after every successful scan the emitted descriptor vector is a
well-formed pre-order forest: every Compound or non-numeric List
descriptor at index `i` is followed by exactly `tags[i].children`
descriptors forming the complete subtrees of its children, so each
parent precedes all of its descendants and the next sibling of index
`i` sits at index `i + children + 1` (the `Tiles` predicate over the
whole vector). -/
theorem claim_C1 (allocOk : Nat → Bool) (buffer : List Nat)
    (stackSize byteorder : Nat) (index0 idx : Index)
    (alive : Option (List Tag))
    (h : nbtlib_scan allocOk buffer stackSize byteorder index0 =
      (0, idx, alive)) :
    Tiles buffer idx.tags 0 idx.tags.length := by
  obtain ⟨st, s', hrun, hle, hsucc⟩ :=
    scanRaw_some allocOk buffer stackSize byteorder
  unfold nbtlib_scan at h
  rw [hrun] at h
  rcases st with _ | st
  · obtain ⟨hInv, hops⟩ := hsucc rfl
    cases h
    dsimp only
    have hseg := hInv.seg
    rw [hops] at hseg
    cases hseg with
    | nil ht => exact ht
  · simp at h

/-- C9 (amended): after every successful scan, every descriptor's
payload offset lies within the buffer, and the span the scanner
actually checks fits: the fixed size for numeric tags and `children`
bytes for strings in full, but for arrays and numeric lists only the
uint32-wrapped skip `(4 + children * size) % 2^32` (resp.
`(5 + children * size) % 2^32`, nbtlib.h lines 226, 251) — the full
declared span `children * size` can exceed the buffer when the skip
wraps (see the counterexample on `c9buf`).  For compounds and
non-numeric lists the payload pointer itself stays in bounds. -/
theorem claim_C9 (allocOk : Nat → Bool) (buffer : List Nat)
    (stackSize byteorder : Nat) (index0 idx : Index)
    (alive : Option (List Tag))
    (h : nbtlib_scan allocOk buffer stackSize byteorder index0 =
      (0, idx, alive)) :
    ∀ t ∈ idx.tags, t.payload ≤ buffer.length ∧
      spanFits buffer buffer.length t := by
  obtain ⟨st, s', hrun, hle, hsucc⟩ :=
    scanRaw_some allocOk buffer stackSize byteorder
  unfold nbtlib_scan at h
  rw [hrun] at h
  rcases st with _ | st
  · obtain ⟨hInv, hops⟩ := hsucc rfl
    cases h
    dsimp only
    intro t ht
    exact ⟨(hInv.spans t ht).1, hInv.spans t ht⟩
  · simp at h

/-- C3 (amended): the 4-byte length field of ByteArray, IntArray and
LongArray tags is decoded as a full unsigned 32-bit integer with no
truncation, so after a successful scan every array descriptor's
children count is below `2^32` (not `2^31`; see the counterexample
reaching `2^31`). -/
theorem claim_C3 (allocOk : Nat → Bool) (buffer : List Nat)
    (stackSize byteorder : Nat) (index0 idx : Index)
    (alive : Option (List Tag))
    (h : nbtlib_scan allocOk buffer stackSize byteorder index0 =
      (0, idx, alive)) :
    ∀ t ∈ idx.tags, t.type = 7 ∨ t.type = 11 ∨ t.type = 12 →
      t.children < 2 ^ 32 := by
  obtain ⟨st, s', hrun, hle, hsucc⟩ :=
    scanRaw_some allocOk buffer stackSize byteorder
  unfold nbtlib_scan at h
  rw [hrun] at h
  rcases st with _ | st
  · obtain ⟨hInv, hops⟩ := hsucc rfl
    cases h
    dsimp only
    exact hInv.arr32
  · simp at h

/-- Raising the fuel never changes a run that already halted. -/
theorem run_extend {allocOk : Nat → Bool} {buffer : List Nat} {bs cap : Nat}
    {native : Bool} :
    ∀ (n m : Nat) (s : ScanState) (r : Nat × ScanState),
      run allocOk buffer bs cap native n s = some r → n ≤ m →
      run allocOk buffer bs cap native m s = some r := by
  intro n
  induction n with
  | zero => intro m s r h; simp [run] at h
  | succ k ih =>
    intro m s r h hnm
    rw [run] at h
    obtain ⟨m', rfl⟩ : ∃ m', m = m' + 1 := ⟨m - 1, by omega⟩
    rw [run]
    cases hstep : step allocOk buffer bs cap native s with
    | halt st s0 => rw [hstep] at h; exact h
    | next s0 => rw [hstep] at h; exact ih m' s0 r h (by omega)

/-- C8: scanning the big-endian buffer holding the named tag
`LongArray "x" {1, 2, 3}` (tag id 12, name length 1, name `"x"`,
element count 3, then three 8-byte big-endian values) succeeds and
yields exactly one descriptor with `type = 12`, `children = 3`,
`name_length = 1`, whose payload offset is 8 (the first array byte),
with the `native` flag cleared. -/
theorem claim_C8 :
    nbtlib_scan allocAlways c8buf 64 62 ⟨[], 0, false⟩ =
      (0, ⟨[⟨8, 3, 1, 12⟩], 1, false⟩, some [⟨8, 3, 1, 12⟩]) := by
  rfl

/-- C7: popping a List tag whose subtype byte is `End` (0) with any
declared length (in particular a nonzero one) emits a single descriptor
of type 9 for the list itself, advances the input by exactly the 5
header bytes (`numeric_sizes 0 = 0`, so no element payload is read) and
pushes nothing onto the op stack, so no child descriptor is ever
recorded for it. -/
theorem claim_C7 {allocOk : Nat → Bool} {buffer : List Nat} {bs cap : Nat}
    {native : Bool} {i : Nat} {rest : List Nat} {tags : List Tag}
    {tc nm : Nat} {s' : ScanState}
    (hsub : byteAt buffer i = 0)
    (_hlen : decode32 native buffer (i + 1) ≠ 0)
    (heof : ¬ i + 5 > bs)
    (h : step allocOk buffer bs cap native ⟨i, 9 :: rest, tags, tc, nm⟩ =
      .next s') :
    s'.i = i + 5 ∧ s'.ops = rest ∧
      s'.tags = tags ++ [⟨i + 5, decode32 native buffer (i + 1), nm, 9⟩] := by
  rw [step_list_num _ _ _ _ _ _ _ _ _ _ heof (by omega)] at h
  obtain ⟨hi', hops', hnm', htags', hle'⟩ := pushTag_next h
  dsimp only at hi' hops' hnm' htags' hle'
  rw [hsub] at hi'
  refine ⟨?_, hops', htags'⟩
  rw [hi']
  simp [numeric_sizes]

/-- Witness for C7 on a concrete buffer: a named List with subtype End
and declared length 7 scans to a single list descriptor, consuming only
the 5 header bytes. -/
theorem claim_C7_witness :
    let s' : ScanState := ⟨8, [], [⟨8, 7, 0, 9⟩], 32, 0⟩
    s'.i = 3 + 5 ∧ s'.ops = [] ∧
      s'.tags = [] ++ [⟨3 + 5, decode32 false c7buf (3 + 1), 0, 9⟩] :=
  @claim_C7 allocAlways c7buf 8 16 false 3 [] [] 0 0
    ⟨8, [], [⟨8, 7, 0, 9⟩], 32, 0⟩
    (by decide) (by decide) (by decide) (by rfl)

/-- C2 (amended): every header read the scanner performs is guarded:
when decoding a string length, an array length, a list header, a
compound entry marker or a named-tag header would exceed the buffer,
the step halts with `UnexpectedEof`, and the emit stage halts with
`UnexpectedEof` whenever the input index has moved past the end of the
buffer.  But because the array / numeric-list payload skip is computed
in 32-bit unsigned arithmetic (nbtlib.h lines 226, 251), only the
mod-`2^32`-wrapped skip is checked: a successful scan bounds each
recorded tag's wrapped span (`spanFits`), while the full declared
payload can extend past the buffer when the skip wraps (see
the counterexample on `c2buf`). -/
theorem claim_C2 (allocOk : Nat → Bool) (buffer : List Nat)
    (stackSize byteorder : Nat) (index0 : Index) (bs cap : Nat)
    (native : Bool) (i : Nat) (rest : List Nat) (tags : List Tag)
    (tc nm : Nat) :
    (i + 2 > bs →
      step allocOk buffer bs cap native ⟨i, 8 :: rest, tags, tc, nm⟩ =
        .halt ERROR_EOF ⟨i, 8 :: rest, tags, tc, nm⟩) ∧
    (∀ op, op = 7 ∨ op = 11 ∨ op = 12 → i + 4 > bs →
      step allocOk buffer bs cap native ⟨i, op :: rest, tags, tc, nm⟩ =
        .halt ERROR_EOF ⟨i, op :: rest, tags, tc, nm⟩) ∧
    (i + 5 > bs →
      step allocOk buffer bs cap native ⟨i, 9 :: rest, tags, tc, nm⟩ =
        .halt ERROR_EOF ⟨i, 9 :: rest, tags, tc, nm⟩) ∧
    (i + 1 > bs →
      step allocOk buffer bs cap native
          ⟨i, OP_EXTEND_COMPOUND :: rest, tags, tc, nm⟩ =
        .halt ERROR_EOF ⟨i, OP_EXTEND_COMPOUND :: rest, tags, tc, nm⟩) ∧
    (i + 3 > bs →
      step allocOk buffer bs cap native
          ⟨i, OP_SET_NAME :: rest, tags, tc, nm⟩ =
        .halt ERROR_EOF ⟨i, OP_SET_NAME :: rest, tags, tc, nm⟩) ∧
    (∀ (s : ScanState) (t : Tag), s.i > bs →
      pushTag allocOk bs s t = .halt ERROR_EOF s) ∧
    (∀ (idx : Index) (alive : Option (List Tag)),
      nbtlib_scan allocOk buffer stackSize byteorder index0 =
        (0, idx, alive) →
      ∀ t ∈ idx.tags, spanFits buffer buffer.length t) := by
  refine ⟨?_, ?_, ?_, ?_, ?_, ?_, ?_⟩
  · intro hh; exact step_string_eof _ _ _ _ _ _ _ _ _ _ hh
  · intro op hop hh; exact step_array_eof _ _ _ _ _ _ _ _ _ _ hop hh
  · intro hh; exact step_list_eof _ _ _ _ _ _ _ _ _ _ hh
  · intro hh; exact step_ecomp_eof _ _ _ _ _ _ _ _ _ _ hh
  · intro hh; exact step_setname_eof _ _ _ _ _ _ _ _ _ _ hh
  · intro s t hh
    unfold pushTag
    rw [if_pos hh]
  · intro idx alive h t ht
    obtain ⟨st, s', hrun, hle, hsucc⟩ :=
      scanRaw_some allocOk buffer stackSize byteorder
    unfold nbtlib_scan at h
    rw [hrun] at h
    rcases st with _ | st
    · obtain ⟨hInv, hops⟩ := hsucc rfl
      cases h
      exact hInv.spans t ht
    · simp at h

/-- Witness for the amended C2: with an empty buffer a string read at
the top of the stack halts with `UnexpectedEof`, and on the successful
`LongArray` scan the single recorded descriptor satisfies the
wrapped-span bound `spanFits` (no wrap occurs on this buffer). -/
theorem claim_C2_witness :
    (step allocAlways [] 0 16 false ⟨0, [8], [], 0, 0⟩ =
      .halt ERROR_EOF ⟨0, [8], [], 0, 0⟩) ∧
    spanFits c8buf c8buf.length ⟨8, 3, 1, 12⟩ := by
  refine ⟨(claim_C2 allocAlways [] 64 62 ⟨[], 0, false⟩ 0 16 false 0 [] []
    0 0).1 (by decide), ?_⟩
  exact (claim_C2 allocAlways c8buf 64 62 ⟨[], 0, false⟩ 0 16 false 0 [] []
    0 0).2.2.2.2.2.2 ⟨[⟨8, 3, 1, 12⟩], 1, false⟩ (some [⟨8, 3, 1, 12⟩])
    (by rfl) ⟨8, 3, 1, 12⟩ (by simp)

/-- C5: the scanner never writes past the caller-supplied stack: from
the initial state the op stack never holds more than `cap` words, and
each push site (the initial `SET_NAME` in `scanRaw`, the 4-word
`EXTEND_LIST` groups, the 2-word pushes of Compound and
`EXTEND_COMPOUND`, and the 1-word push in `SET_NAME`) checks the
remaining capacity first and halts with `DepthExceeded` when the push
would overflow. -/
theorem claim_C5 (allocOk : Nat → Bool) (buffer : List Nat)
    (stackSize byteorder : Nat) (bs cap : Nat) (native : Bool) (i : Nat)
    (rest : List Nat) (tags : List Tag) (tc nm : Nat) :
    (1 ≤ cap → ∀ n : Nat,
      (iterate allocOk buffer bs cap native n initState).ops.length ≤ cap) ∧
    (1 > stackSize / 4 →
      scanRaw allocOk buffer stackSize byteorder =
        some (ERROR_DEPTH, initState)) ∧
    (¬ i + 5 > bs → ¬ byteAt buffer i ≤ 6 → rest.length + 4 > cap →
      step allocOk buffer bs cap native ⟨i, 9 :: rest, tags, tc, nm⟩ =
        .halt ERROR_DEPTH ⟨i, 9 :: rest, tags, tc, nm⟩) ∧
    (∀ r s0 rest2, r ≠ 0 → rest2.length + 4 > cap →
      step allocOk buffer bs cap native
          ⟨i, 512 :: r :: s0 :: rest2, tags, tc, nm⟩ =
        .halt ERROR_DEPTH ⟨i, 512 :: r :: s0 :: rest2, tags, tc, nm⟩) ∧
    (rest.length + 2 > cap →
      step allocOk buffer bs cap native ⟨i, 10 :: rest, tags, tc, nm⟩ =
        .halt ERROR_DEPTH ⟨i, 10 :: rest, tags, tc, nm⟩) ∧
    (¬ i + 1 > bs → ¬ byteAt buffer i = 0 → rest.length + 2 > cap →
      step allocOk buffer bs cap native
          ⟨i, OP_EXTEND_COMPOUND :: rest, tags, tc, nm⟩ =
        .halt ERROR_DEPTH ⟨i, OP_EXTEND_COMPOUND :: rest, tags, tc, nm⟩) ∧
    (¬ i + 3 > bs → rest.length + 1 > cap →
      step allocOk buffer bs cap native
          ⟨i, OP_SET_NAME :: rest, tags, tc, nm⟩ =
        .halt ERROR_DEPTH ⟨i, OP_SET_NAME :: rest, tags, tc, nm⟩) := by
  refine ⟨?_, ?_, ?_, ?_, ?_, ?_, ?_⟩
  · intro hcap n
    exact (iterate_inv n initState (inv_init buffer bs cap hcap)).len_le
  · intro hh
    unfold scanRaw
    rw [if_pos hh]
  · intro h1 h2 h3; exact step_list_depth _ _ _ _ _ _ _ _ _ _ h1 h2 h3
  · intro r s0 rest2 h1 h2
    exact step_elist_depth _ _ _ _ _ _ _ _ _ s0 _ h1 h2
  · intro h1; exact step_compound_depth _ _ _ _ _ _ _ _ _ _ h1
  · intro h1 h2 h3; exact step_ecomp_depth _ _ _ _ _ _ _ _ _ _ h1 h2 h3
  · intro h1 h2; exact step_setname_depth _ _ _ _ _ _ _ _ _ _ h1 h2

/-- Witness for C5: after two iterations on the `LongArray` buffer the
stack stays within 16 words, and pushing a Compound with a full stack
halts with `DepthExceeded`. -/
theorem claim_C5_witness :
    (iterate allocAlways c8buf 32 16 false 2 initState).ops.length ≤ 16 ∧
    step allocAlways [] 0 1 false ⟨0, [10], [], 0, 0⟩ =
      .halt ERROR_DEPTH ⟨0, [10], [], 0, 0⟩ := by
  refine ⟨(claim_C5 allocAlways c8buf 64 62 32 16 false 0 [] [] 0 0).1
    (by norm_num) 2, ?_⟩
  exact (claim_C5 allocAlways [] 64 62 0 1 false 0 [] [] 0 0).2.2.2.2.1
    (by decide)

/-- C4: `nbtlib_scan` is atomic: when the status is non-zero the
caller-visible index is exactly what it was before the call and the
accumulated tags buffer has been released (no live allocation); the
index fields are populated only when the status is 0, in which case
they point at the scanned vector. -/
theorem claim_C4 (allocOk : Nat → Bool) (buffer : List Nat)
    (stackSize byteorder : Nat) (index0 : Index) :
    ((nbtlib_scan allocOk buffer stackSize byteorder index0).1 ≠ 0 →
      (nbtlib_scan allocOk buffer stackSize byteorder index0).2.1 =
        index0 ∧
      (nbtlib_scan allocOk buffer stackSize byteorder index0).2.2 =
        none) ∧
    ((nbtlib_scan allocOk buffer stackSize byteorder index0).1 = 0 →
      ∃ s', scanRaw allocOk buffer stackSize byteorder = some (0, s') ∧
        (nbtlib_scan allocOk buffer stackSize byteorder index0).2 =
          (⟨s'.tags, s'.tags.length, nativeFlag byteorder⟩,
            some s'.tags)) := by
  obtain ⟨st, s', hrun, hle, hsucc⟩ :=
    scanRaw_some allocOk buffer stackSize byteorder
  unfold nbtlib_scan
  rw [hrun]
  rcases st with _ | st
  · exact ⟨fun hne => absurd rfl hne, fun _ => ⟨s', rfl, rfl⟩⟩
  · exact ⟨fun _ => ⟨rfl, rfl⟩, fun hz => absurd hz (by simp)⟩

/-- Witness for C4: a failing scan (empty buffer, `UnexpectedEof`)
leaves a pre-populated caller index untouched and no live tags
allocation. -/
theorem claim_C4_witness :
    (nbtlib_scan allocAlways [] 64 62 ⟨[⟨5, 6, 7, 8⟩], 9, true⟩).2.1 =
      ⟨[⟨5, 6, 7, 8⟩], 9, true⟩ ∧
    (nbtlib_scan allocAlways [] 64 62 ⟨[⟨5, 6, 7, 8⟩], 9, true⟩).2.2 =
      none :=
  (claim_C4 allocAlways [] 64 62 ⟨[⟨5, 6, 7, 8⟩], 9, true⟩).1 (by decide)

/-- C6: the endian-retry logic of `TagIndex.__init__`: with an
undeclared byte-order string (neither `"big"` nor `"little"`) the first
scan runs big-endian (character `'>'` = 62) and, when it fails with
`UnexpectedEof` (1) or `InvalidType` (2), is retried exactly once with
the opposite order (`'<'` = 60), the retry's status and index becoming
the result; a first failure with `DepthExceeded` (3) or `OutOfMemory`
(4) is never retried; a declared byte order is never retried regardless
of the error. -/
theorem claim_C6 (allocOk : Nat → Bool) (buffer : List Nat)
    (stackSize : Nat) (byteorder : String) :
    (byteorder ≠ "big" → byteorder ≠ "little" →
      ((nbtlib_scan allocOk buffer stackSize 62 ⟨[], 0, false⟩).1 = 1 ∨
        (nbtlib_scan allocOk buffer stackSize 62 ⟨[], 0, false⟩).1 = 2) →
      tagIndexInit allocOk buffer byteorder stackSize =
        ((nbtlib_scan allocOk buffer stackSize 60
            (nbtlib_scan allocOk buffer stackSize 62 ⟨[], 0, false⟩).2.1).1,
          (nbtlib_scan allocOk buffer stackSize 60
            (nbtlib_scan allocOk buffer stackSize 62 ⟨[], 0, false⟩).2.1).2.1)) ∧
    (byteorder ≠ "big" → byteorder ≠ "little" →
      ((nbtlib_scan allocOk buffer stackSize 62 ⟨[], 0, false⟩).1 = 3 ∨
        (nbtlib_scan allocOk buffer stackSize 62 ⟨[], 0, false⟩).1 = 4) →
      tagIndexInit allocOk buffer byteorder stackSize =
        ((nbtlib_scan allocOk buffer stackSize 62 ⟨[], 0, false⟩).1,
          (nbtlib_scan allocOk buffer stackSize 62 ⟨[], 0, false⟩).2.1)) ∧
    (byteorder = "big" ∨ byteorder = "little" →
      tagIndexInit allocOk buffer byteorder stackSize =
        (if (nbtlib_scan allocOk buffer stackSize
              (if byteorder = "little" then 60 else 62) ⟨[], 0, false⟩).1 = 0
          then (0, (nbtlib_scan allocOk buffer stackSize
              (if byteorder = "little" then 60 else 62) ⟨[], 0, false⟩).2.1)
          else ((nbtlib_scan allocOk buffer stackSize
              (if byteorder = "little" then 60 else 62) ⟨[], 0, false⟩).1,
            (nbtlib_scan allocOk buffer stackSize
              (if byteorder = "little" then 60 else 62) ⟨[], 0, false⟩).2.1))) := by
  refine ⟨?_, ?_, ?_⟩
  · intro hb hl hst
    have hfirst : tagIndexFirst allocOk buffer stackSize byteorder =
        nbtlib_scan allocOk buffer stackSize 62 ⟨[], 0, false⟩ := by
      unfold tagIndexFirst
      rw [if_neg hl]
    unfold tagIndexInit
    rw [hfirst, if_neg (by omega), if_pos ⟨hst, hb, hl⟩]
  · intro hb hl hst
    have hfirst : tagIndexFirst allocOk buffer stackSize byteorder =
        nbtlib_scan allocOk buffer stackSize 62 ⟨[], 0, false⟩ := by
      unfold tagIndexFirst
      rw [if_neg hl]
    unfold tagIndexInit
    rw [hfirst, if_neg (by omega), if_neg (by
      rintro ⟨hor, _, _⟩
      have hor2 : (nbtlib_scan allocOk buffer stackSize 62
          ⟨[], 0, false⟩).1 = 1 ∨
          (nbtlib_scan allocOk buffer stackSize 62 ⟨[], 0, false⟩).1 = 2 :=
        hor
      omega)]
  · intro hdecl
    unfold tagIndexInit tagIndexFirst
    by_cases h0 : (nbtlib_scan allocOk buffer stackSize
        (if byteorder = "little" then 60 else 62) ⟨[], 0, false⟩).1 = 0
    · rw [if_pos h0, if_pos h0]
    · rw [if_neg h0, if_neg h0, if_neg (by
        rintro ⟨_, hb, hl⟩
        rcases hdecl with h | h
        · exact hb h
        · exact hl h)]

/-- Witness for C6: an empty buffer with byteorder `"auto"` fails
big-endian with `UnexpectedEof` and is retried little-endian (also
failing with `UnexpectedEof`), while byteorder `"big"` is not
retried. -/
theorem claim_C6_witness :
    tagIndexInit allocAlways [] "auto" 64 = (1, ⟨[], 0, false⟩) ∧
    tagIndexInit allocAlways [] "big" 64 = (1, ⟨[], 0, false⟩) := by
  constructor
  · rw [(claim_C6 allocAlways [] 64 "auto").1 (by decide) (by decide)
      (by left; rfl)]
    rfl
  · rw [(claim_C6 allocAlways [] 64 "big").2.2 (by left; rfl)]
    rfl

/-- Witness for C1 on the `LongArray` scenario buffer. -/
theorem claim_C1_witness :
    Tiles c8buf [⟨8, 3, 1, 12⟩] 0 1 :=
  claim_C1 allocAlways c8buf 64 62 ⟨[], 0, false⟩
    ⟨[⟨8, 3, 1, 12⟩], 1, false⟩ (some [⟨8, 3, 1, 12⟩]) (by rfl)

/-- Witness for the amended C9 on the `LongArray` scenario buffer. -/
theorem claim_C9_witness :
    (⟨8, 3, 1, 12⟩ : Tag).payload ≤ c8buf.length ∧
      spanFits c8buf c8buf.length ⟨8, 3, 1, 12⟩ :=
  claim_C9 allocAlways c8buf 64 62 ⟨[], 0, false⟩
    ⟨[⟨8, 3, 1, 12⟩], 1, false⟩ (some [⟨8, 3, 1, 12⟩]) (by rfl)
    ⟨8, 3, 1, 12⟩ (by simp)

/-- Witness for the amended C3 on the `LongArray` scenario buffer. -/
theorem claim_C3_witness :
    (⟨8, 3, 1, 12⟩ : Tag).children < 2 ^ 32 :=
  claim_C3 allocAlways c8buf 64 62 ⟨[], 0, false⟩
    ⟨[⟨8, 3, 1, 12⟩], 1, false⟩ (some [⟨8, 3, 1, 12⟩]) (by rfl)
    ⟨8, 3, 1, 12⟩ (by simp) (by decide)

/-- Witness for C10 at a concrete input. -/
theorem claim_C10_witness :
    (nbtlib_scan allocAlways c8buf 64 62 ⟨[], 0, false⟩).1 ≤ 4 ∧
      scanRaw allocAlways c8buf 64 62 ≠ none :=
  claim_C10 allocAlways c8buf 64 62 ⟨[], 0, false⟩

/-- A successful core scan determines the result of `nbtlib_scan`. -/
theorem nbtlib_scan_of_scanRaw_zero {allocOk : Nat → Bool}
    {buffer : List Nat} {stackSize byteorder : Nat} {index0 : Index}
    {s' : ScanState}
    (h : scanRaw allocOk buffer stackSize byteorder = some (0, s')) :
    nbtlib_scan allocOk buffer stackSize byteorder index0 =
      (0, ⟨s'.tags, s'.tags.length, nativeFlag byteorder⟩, some s'.tags) := by
  unfold nbtlib_scan
  rw [h]

/-- Counterexample to C3 as stated: the scanner does not truncate array
lengths at `2^31 - 1`.  Scanning a named ByteArray whose big-endian
length field is `0x80000000` over a buffer that really holds `2^31`
payload bytes succeeds, and the recorded descriptor's children count is
`2^31`, which exceeds `2^31 - 1`. -/
theorem claim_C3_counterexample :
    nbtlib_scan allocAlways c3buf 64 62 ⟨[], 0, false⟩ =
      (0, ⟨[⟨7, 2147483648, 0, 7⟩], 1, false⟩,
        some [⟨7, 2147483648, 0, 7⟩]) ∧
    ¬ ((2147483648 : Nat) ≤ 2 ^ 31 - 1) := by
  have hbs : c3buf.length = 2147483655 := by
    unfold c3buf
    rw [List.length_append, List.length_replicate]
    norm_num
  have hrun4 : run allocAlways c3buf 2147483655 16 false 4 initState =
      some (0, ⟨2147483655, [], [⟨7, 2147483648, 0, 7⟩], 32, 0⟩) := by rfl
  have hscan : scanRaw allocAlways c3buf 64 62 =
      some (0, ⟨2147483655, [], [⟨7, 2147483648, 0, 7⟩], 32, 0⟩) := by
    simp only [scanRaw]
    rw [hbs]
    norm_num
    exact run_extend 4 _ _ _ hrun4 (by norm_num [scanFuelBound])
  constructor
  · rw [@nbtlib_scan_of_scanRaw_zero allocAlways c3buf 64 62
      ⟨[], 0, false⟩ _ hscan]
    rfl
  · norm_num

/-- Counterexample to C2 as stated: skipping a declared numeric-list
payload that extends far past the buffer does not yield `UnexpectedEof`.
On the 8-byte buffer `c2buf` (a named List of Longs with declared
length `0x20000000`) the uint32 skip `5 + 0x20000000 * 8` wraps to 5,
the scan succeeds with status 0, and the recorded descriptor's full
declared payload (`children` elements of 8 bytes, i.e. `2^32` bytes
from offset 8) extends past the end of the buffer. -/
theorem claim_C2_counterexample :
    nbtlib_scan allocAlways c2buf 64 62 ⟨[], 0, false⟩ =
      (0, ⟨[⟨8, 536870912, 0, 9⟩], 1, false⟩,
        some [⟨8, 536870912, 0, 9⟩]) ∧
    byteAt c2buf (8 - 5) ≤ 6 ∧
    ¬ (8 + 536870912 * numeric_sizes (byteAt c2buf (8 - 5)) ≤
        c2buf.length) :=
  ⟨by rfl, by decide, by decide⟩

/-- Counterexample to C9 as stated: on the 7-byte buffer `c9buf` (a
named LongArray with declared big-endian length `0x20000000`) the
uint32 skip `4 + 0x20000000 * 8` wraps to 4, the scan succeeds with
status 0, and the recorded descriptor's full declared span
`payload + children * 8 = 7 + 2^32` exceeds the buffer length 7. -/
theorem claim_C9_counterexample :
    nbtlib_scan allocAlways c9buf 64 62 ⟨[], 0, false⟩ =
      (0, ⟨[⟨7, 536870912, 0, 12⟩], 1, false⟩,
        some [⟨7, 536870912, 0, 12⟩]) ∧
    ¬ (7 + 536870912 * numeric_sizes 12 ≤ c9buf.length) :=
  ⟨by rfl, by decide⟩

end Nbt
